import Mathlib

/-!
Verification of the core forecast-reconciliation engine of `hts/core/functions.py`
(scikit-hts).  The six functions of that module — `to_sum_mat`, `project`,
`y_hat_matrix`, `optimal_combination`, `proportions` and `forecast_proportions` —
are embedded shallowly over `List (List ℚ)` matrices (row major, exact rational
arithmetic standing in for numpy floats).  Python exceptions are modelled by an
`Except` error type; numpy operations that silently clip (slicing) are modelled
by clipping `take`/`drop`, and numpy operations that raise (`np.linalg.inv` on a
singular matrix, `np.concatenate` on mismatched shapes, indexing an empty dict)
are modelled by explicit error returns.  Division by zero inside
`forecast_proportions`, which numpy turns into silent `inf`/`NaN` entries, is
modelled with `Option ℚ` entries where `none` stands for a non-finite value.
-/

namespace HTS

-- Rational arithmetic is made unfoldable again so that concrete runs of the
-- embedded functions can be checked by `decide`.
attribute [local semireducible] Rat.add Rat.mul Rat.inv Rat.sub

/-- Python/numpy exceptions raised by the embedded functions:
`indexError` (list index out of range), `keyError` (missing dict key),
`shapeError` (numpy shape mismatch in `concatenate`/`dot`/assignment),
`invalidMethod` (the `ValueError('Invalid method')` raises),
`singular` (`np.linalg.LinAlgError` from `np.linalg.inv`) and
`valueError` (other numpy `ValueError`s, e.g. `np.hstack([])`). -/
inductive HtsError where
  | indexError
  | keyError
  | shapeError
  | invalidMethod
  | singular
  | valueError
deriving DecidableEq

/-- Width of a row-major matrix: the length of its first row (numpy arrays are
rectangular, so this is the column count of any well-formed value). -/
def width (A : List (List ℚ)) : ℕ := (A.headD []).length

/-- Dot product of two vectors (`np.dot` on 1-D arrays, on equal lengths). -/
def dot (xs ys : List ℚ) : ℚ := (List.zipWith (fun a b => a * b) xs ys).sum

/-- Matrix–vector product `A · v` (`np.dot` of a 2-D and a 1-D array). -/
def matVec (A : List (List ℚ)) (v : List ℚ) : List ℚ := A.map (fun r => dot r v)

/-- Column `j` of a matrix, with numpy-style rectangular reading (missing
entries read as `0`; well-formed inputs are rectangular so this never fires). -/
def colD (A : List (List ℚ)) (j : ℕ) : List ℚ := A.map (fun r => r.getD j 0)

/-- Matrix product (`np.dot` of two 2-D arrays). -/
def matMul (A B : List (List ℚ)) : List (List ℚ) :=
  A.map (fun r => (List.range (width B)).map (fun j => dot r (colD B j)))

/-- Matrix transpose (`np.transpose`). -/
def transposeM (A : List (List ℚ)) : List (List ℚ) :=
  (List.range (width A)).map (fun j => colD A j)

/-- Diagonal matrix from a vector (`np.diag`). -/
def diagMat (d : List ℚ) : List (List ℚ) :=
  (List.range d.length).map (fun i =>
    (List.range d.length).map (fun j => if i = j then d.getD i 0 else 0))

/-- Identity matrix (`np.identity`). -/
def idMat (n : ℕ) : List (List ℚ) :=
  (List.range n).map (fun i => (List.range n).map (fun j => if i = j then (1 : ℚ) else 0))

/-- Column-wise sum of a stack of rows of width `cols` (`a.sum(axis=0)`; the
sum over an empty stack is the zero row, as in numpy). -/
def colSum (cols : ℕ) (rows : List (List ℚ)) : List ℚ :=
  (List.range cols).map (fun j => (rows.map (fun r => r.getD j 0)).sum)

/-- The test `np.all(B == 0)` on a matrix. -/
def allZero (B : List (List ℚ)) : Bool :=
  B.all (fun r => r.all (fun x => decide (x = 0)))

/-- Inner loop of `to_sum_mat` (`for num2sum in summing: ...`): slices
consecutive groups of `bl` rows, sums each group, and accumulates the rows,
bootstrapping via the `np.all(B == 0)` check exactly as the source does. -/
def buildBGo (cols : ℕ) (bl : List (List ℚ)) :
    List ℕ → ℕ → List (List ℚ) → List (List ℚ)
  | [], _, B => B
  | c :: cs, count, B =>
      let a := (bl.drop count).take c
      let s := colSum cols a
      buildBGo cols bl cs (count + c) (if allZero B then [s] else B ++ [s])

/-- One level of `to_sum_mat`: starting from `B = np.zeros([columns])`. -/
def buildB (cols : ℕ) (bl : List (List ℚ)) (summing : List ℕ) : List (List ℚ) :=
  buildBGo cols bl summing 0 [List.replicate cols 0]

/-- The `for lev in range(num_levels - 1)` loop of `to_sum_mat`: each level
block is stacked above the accumulated matrix and becomes the new `bl_mat`. -/
def tsLoop (cols : ℕ) : List (List ℕ) → List (List ℚ) → List (List ℚ) → List (List ℚ)
  | [], _, final => final
  | s :: rest, bl, final =>
      let B := buildB cols bl s
      tsLoop cols rest B (B ++ final)

/-- Embedding of `to_sum_mat` (functions.py lines 9-48).  The input is the
level-order traversal: one list of per-node child counts per level.  On an
empty hierarchy `num_at_level[-1]` raises `IndexError`.  The loop processes
`nodes[-(lev+1)]` for `lev = 0 .. num_levels-2`, i.e. the reversed tail of
`nodes`; finally the all-ones row is stacked on top. -/
def to_sum_mat (nodes : List (List ℕ)) : Except HtsError (List (List ℚ)) :=
  match nodes with
  | [] => .error .indexError
  | n0 :: rest =>
      let cols := ((n0 :: rest).getLastD []).sum
      .ok (List.replicate cols (1 : ℚ) :: tsLoop cols rest.reverse (idMat cols) (idMat cols))

/-- Loop of `y_hat_matrix`: each key is looked up in the mapping (`KeyError`
when absent), turned into a column, and either replaces the accumulator (when
the accumulator is all zeros — the first-iteration bootstrap of the source) or
is concatenated to it (`np.concatenate` raises on mismatched heights). -/
def yhatGo (forecasts : List (String × List ℚ)) :
    List String → List (List ℚ) → Except HtsError (List (List ℚ))
  | [], acc => .ok acc
  | k :: ks, acc =>
      match List.lookup k forecasts with
      | none => .error .keyError
      | some f =>
          let f2 := f.map (fun x => [x])
          if allZero acc then yhatGo forecasts ks f2
          else if acc.length = f2.length then
            yhatGo forecasts ks (List.zipWith (fun r c => r ++ c) acc f2)
          else .error .shapeError

/-- Embedding of `y_hat_matrix` (functions.py lines 58-70).  The forecasts
mapping is an insertion-ordered association list (a Python dict); `keys = None`
and `keys = []` are both falsy, so both fall back to the mapping keys.  The
initial matrix is sized from the mapping first key, which raises `IndexError`
on an empty mapping even when `keys` is supplied. -/
def y_hat_matrix (forecasts : List (String × List ℚ)) (keys : Option (List String)) :
    Except HtsError (List (List ℚ)) :=
  let ks := match keys with
    | none => forecasts.map (fun kv => kv.1)
    | some [] => forecasts.map (fun kv => kv.1)
    | some l => l
  match forecasts with
  | [] => .error .indexError
  | (_, f0) :: _ => yhatGo forecasts ks (List.replicate f0.length [0])

/-- Swap two rows of a matrix. -/
def swapRows (rows : List (List ℚ)) (i j : ℕ) : List (List ℚ) :=
  (rows.set i (rows.getD j [])).set j (rows.getD i [])

/-- Partial pivoting at elimination step `k`: bring some row at position `≥ k`
with a nonzero entry in column `k` to position `k`; `none` means the matrix is
singular. -/
def pivotStep (k : ℕ) (rows : List (List ℚ)) : Option (List (List ℚ)) :=
  match (rows.drop k).findIdx? (fun r => decide (r.getD k 0 ≠ 0)) with
  | none => none
  | some j => some (swapRows rows k (k + j))

/-- Gauss–Jordan elimination of column `k`: normalise the pivot row and clear
column `k` from every other row. -/
def elimStep (k : ℕ) (rows : List (List ℚ)) : List (List ℚ) :=
  let piv := rows.getD k []
  let p := piv.getD k 0
  let pn := piv.map (fun x => x / p)
  rows.mapIdx (fun i r =>
    if i = k then pn
    else List.zipWith (fun a b => a - b) r (pn.map (fun x => x * r.getD k 0)))

/-- Full Gauss–Jordan sweep over all `n` columns. -/
def gaussAll (n : ℕ) (rows : List (List ℚ)) : Option (List (List ℚ)) :=
  (List.range n).foldlM (fun rs k => (pivotStep k rs).map (elimStep k)) rows

/-- Exact matrix inverse (`np.linalg.inv`): `none` exactly when the input is not
a square nonsingular matrix, where numpy raises `LinAlgError`.  The result is
read back as an `n × n` block by construction. -/
def minv (A : List (List ℚ)) : Option (List (List ℚ)) :=
  let n := A.length
  if A.all (fun r => decide (r.length = n)) then
    match gaussAll n (List.zipWith (fun r e => r ++ e) A (idMat n)) with
    | none => none
    | some rs =>
        some ((List.range n).map (fun i =>
          (List.range n).map (fun j => (rs.getD i []).getD (n + j) 0)))
  else none

/-- `np.linalg.inv` with its `LinAlgError` surfaced as an `Except` error. -/
def minvE (A : List (List ℚ)) : Except HtsError (List (List ℚ)) :=
  match minv A with
  | none => .error .singular
  | some B => .ok B

/-- Embedding of `project` (functions.py lines 51-55): every row of `hat_mat`
is multiplied through `optimal_mat` and becomes a row of the output.  The
`np.dot(optimal_mat, row)` call requires the row length to match the width of
`optimal_mat`, and the row assignment into `np.empty([_, sum_mat.shape[0]])`
requires the product length to match `sum_mat`'s row count. -/
def project (hat_mat sum_mat optimal_mat : List (List ℚ)) :
    Except HtsError (List (List ℚ)) :=
  if hat_mat.all (fun r => decide (r.length = width optimal_mat))
      && decide (optimal_mat.length = sum_mat.length) then
    .ok (hat_mat.map (fun r => matVec optimal_mat r))
  else .error .shapeError

/-- The `1e-7` guard added to every variance in the WLSV branch. -/
def wlsvEps : ℚ := 1 / 10000000

/-- Shared tail of `optimal_combination` (functions.py lines 110-115): given
the weight diagonal `diag`, project the base forecasts through
`S (Sᵀ W⁻¹ S)⁻¹ Sᵀ W⁻¹` (both `np.linalg.inv(diag)` calls of the source
compute the same value). -/
def ocTail (hat_mat sum_mat transpose diag : List (List ℚ)) :
    Except HtsError (List (List ℚ)) :=
  match minvE diag with
  | .error e => .error e
  | .ok invd =>
      match minvE (matMul (matMul transpose invd) sum_mat) with
      | .error e => .error e
      | .ok inv1 =>
          project hat_mat sum_mat (matMul (matMul (matMul sum_mat inv1) transpose) invd)

/-- Embedding of `optimal_combination` (functions.py lines 73-115).  The base
forecast matrix is assembled first (so an empty mapping raises before the
method is even inspected); `OLS` projects through `S (SᵀS)⁻¹ Sᵀ`; `WLSS` builds
the diagonal of row sums of `S`; `WLSV` builds the diagonal of the mse values
(in key order, `+ 1e-7`, then `np.flip`); any other method raises
`ValueError('Invalid method')`; the shared tail projects through
`S (Sᵀ W⁻¹ S)⁻¹ Sᵀ W⁻¹`. -/
def optimal_combination (forecasts : List (String × List ℚ)) (sum_mat : List (List ℚ))
    (method : String) (mse : List (String × ℚ)) : Except HtsError (List (List ℚ)) :=
  match y_hat_matrix forecasts none with
  | .error e => .error e
  | .ok hat_mat =>
      let transpose := transposeM sum_mat
      if method = "OLS" then
        match minvE (matMul transpose sum_mat) with
        | .error e => .error e
        | .ok inv1 => project hat_mat sum_mat (matMul (matMul sum_mat inv1) transpose)
      else
        match (if method = "WLSS" then
                 Except.ok (diagMat (sum_mat.map (fun r => r.sum)))
               else if method = "WLSV" then
                 (if mse.isEmpty then Except.error HtsError.valueError
                  else Except.ok (diagMat (((mse.map (fun kv => kv.2)).map
                    (fun x => x + wlsvEps)).reverse)))
               else Except.error HtsError.invalidMethod) with
        | .error e => .error e
        | .ok diag => ocTail hat_mat sum_mat transpose diag

/-- Embedding of `proportions` (functions.py lines 118-135).  `df` is the
historical table (row major; column 1 is the root series); the forecasts dict
is keyed by consecutive integers from 0, so it is a list whose head is the root
forecast (`forecasts[0]`, `KeyError` when empty).  `df.iloc` slicing clips like
Python slices.  Negative slice positions (which would occur only when
`num_bts > n_cols`) are outside the modelled range since ℕ subtraction
truncates at 0. -/
def proportions (df : List (List ℚ)) (forecasts : List (List ℚ))
    (sum_mat : List (List ℚ)) (method : String) : Except HtsError (List (List ℚ)) :=
  match forecasts.head? with
  | none => .error .keyError
  | some fcst =>
      let n_cols := forecasts.length + 1
      let num_bts := width sum_mat
      let bts_dat := df.map (fun row => (row.drop (n_cols - num_bts)).take num_bts)
      if method = "APH" then
        let props := (List.range (width bts_dat)).map (fun j =>
          (List.zipWith (fun brow drow => brow.getD j 0 / drow.getD 1 0) bts_dat df).sum
            / (df.length : ℚ))
        .ok (fcst.map (fun x => props.map (fun p => x * p)))
      else if method = "PHA" then
        let bts_sum := colSum (width bts_dat) bts_dat
        let top_sum := (df.map (fun row => row.getD 1 0)).sum
        let props := bts_sum.map (fun s => s / top_sum)
        .ok (fcst.map (fun x => props.map (fun p => x * p)))
      else .error .invalidMethod

/-- Multiplication of a possibly non-finite value by a rational. -/
def optMul (x : Option ℚ) (y : ℚ) : Option ℚ := x.map (fun a => a * y)

/-- Division with the numpy float semantics abstracted: dividing by zero never
yields a finite value (`inf`/`NaN`), modelled as `none`; a non-finite numerator
stays non-finite. -/
def optDivQ (x : Option ℚ) (d : ℚ) : Option ℚ :=
  if d = 0 then none else x.map (fun a => a / d)

/-- The slice `[forecasts[k] for k in range(first_node, last_node)]` of the
integer-keyed forecasts dict; `none` models the `KeyError` on a missing key. -/
def sliceKeys (forecasts : List (List ℚ)) (a c : ℕ) : Option (List (List ℚ)) :=
  if a + c ≤ forecasts.length then some ((forecasts.drop a).take c) else none

/-- Loop body of `forecast_proportions`, flattened over the per-node child
counts (the source iterates levels then nodes-in-level, which visits exactly
the concatenation of the level lists).  State: `column` (index of the current
parent), `first_node` (index of its first child), and the output matrix whose
entries are `Option ℚ` (`none` = non-finite or uninitialised `np.empty`
garbage).  A node with zero children makes `fore_sum[:, np.newaxis]` raise on a
0-d array; ragged child forecasts make `np.array` raise. -/
def fpGo (forecasts : List (List ℚ)) (h w : ℕ) (root : List ℚ) :
    List ℕ → ℕ → ℕ → List (List (Option ℚ)) → Except HtsError (List (List (Option ℚ)))
  | [], _, _, mat => .ok mat
  | c :: cs, column, first_node, mat =>
      if c = 0 then .error .indexError
      else
        match sliceKeys forecasts first_node c with
        | none => .error .keyError
        | some base =>
            if base.all (fun f => decide (f.length = h)) then
              let foreSum := (List.range h).map (fun t => (base.map (fun f => f.getD t 0)).sum)
              match (if column = 0 then
                       Except.ok ((List.range h).map (fun t => some (root.getD t 0)))
                     else if column < w then
                       Except.ok ((List.range h).map (fun t => (mat.getD t []).getD column none))
                     else Except.error HtsError.indexError) with
              | .error e => .error e
              | .ok revTop =>
                  let vals := (List.range h).map (fun t =>
                    base.map (fun f => optDivQ (optMul (revTop.getD t none) (f.getD t 0)) (foreSum.getD t 0)))
                  let mat2 := List.zipWith
                    (fun mrow vrow => mrow.take first_node ++ vrow ++ mrow.drop (first_node + c))
                    mat vals
                  fpGo forecasts h w root cs (column + 1) (first_node + c) mat2
            else .error .valueError

/-- Embedding of `forecast_proportions` (functions.py lines 138-170).  The
forecasts dict is keyed by consecutive integers from 0 (a list); the output has
`len(forecasts)` columns (`n_cols - 1`), starts as `np.empty` (uninitialised,
modelled `none`) with column 0 set to the root forecast, and each sibling group
is filled with `base * parent / sibling_sum` — with no zero-denominator check. -/
def forecast_proportions (forecasts : List (List ℚ)) (nodes : List (List ℕ)) :
    Except HtsError (List (List (Option ℚ))) :=
  match forecasts.head? with
  | none => .error .keyError
  | some root =>
      let n_cols := forecasts.length + 1
      let h := root.length
      let init := (List.range h).map (fun t =>
        (List.range (n_cols - 1)).map (fun j =>
          if j = 0 then some (root.getD t 0) else (none : Option ℚ)))
      fpGo forecasts h (n_cols - 1) root (nodes.flatMap id) 0 1 init

/-- The matrix the C9 claim describes for the PHA method: one row per horizon
step, one column per bottom series; the entry at step `h` and bottom series `j`
is the root forecast at step `h` times (the sum of series `j`'s historical
values — its history lives in trailing column `nCols - numBts + j` of the
table — divided by the sum of the root's historical values, which live in
column 1). -/
def phaClaim (df : List (List ℚ)) (rootFcst : List ℚ) (numBts nCols : ℕ) :
    List (List ℚ) :=
  rootFcst.map (fun x => (List.range numBts).map (fun j =>
    x * ((df.map (fun row => row.getD (nCols - numBts + j) 0)).sum
          / (df.map (fun row => row.getD 1 0)).sum)))

/-- The weight matrix the C4 claim describes for WLSV: a diagonal matrix whose
diagonal entries are the mse mapping's values taken in key order, reversed
(flipped), with exactly `1e-7` added to every value. -/
def wlsvClaimW (mse : List (String × ℚ)) : List (List ℚ) :=
  diagMat (((mse.map (fun kv => kv.2)).reverse).map (fun x => x + 1 / 10000000))

/-- Bottom-series count of a level-order structure: the sum of the last
level's child counts (`num_at_level[-1]` of the source). -/
def colsOf (nodes : List (List ℕ)) : ℕ := (nodes.getLastD []).sum

/-- Validity of a level-order structure: non-empty, a single root, the child
counts at each level sum to the node count of the next level, and every node
has at least one child (a leaf sitting above the bottom level is encoded with a
single self-child, as in the `[[2],[2,1]]` example of the spec). -/
def validNodes (nodes : List (List ℕ)) : Bool :=
  !nodes.isEmpty && (nodes.headD []).length == 1 &&
    (List.range (nodes.length - 1)).all
      (fun i => (nodes.getD i []).sum == (nodes.getD (i + 1) []).length) &&
    nodes.all (fun l => !l.isEmpty && l.all (fun c => decide (1 ≤ c)))

/-- The 0/1 indicator row of the column interval `[lo, lo + w)` inside a row of
width `cols` (for `lo + w ≤ cols`). -/
def indRow (cols lo w : ℕ) : List ℚ :=
  List.replicate lo 0 ++ List.replicate w 1 ++ List.replicate (cols - lo - w) 0

/-- The stack of indicator rows of consecutive intervals of the given widths,
starting at column `lo`. -/
def intervalRows (cols : ℕ) : ℕ → List ℕ → List (List ℚ)
  | _, [] => []
  | lo, w :: ws => indRow cols lo w :: intervalRows cols (lo + w) ws

/-- Group a width list into consecutive groups of the given sizes and sum each
group: the widths of one level up. -/
def groupSums : List ℕ → List ℕ → List ℕ
  | [], _ => []
  | c :: cs, ws => (ws.take c).sum :: groupSums cs (ws.drop c)

/-- Sum a vector over consecutive chunks of the given widths: the value of each
node of a level, as the sum of its bottom descendants. -/
def chunkSums : List ℕ → List ℚ → List ℚ
  | [], _ => []
  | w :: ws, b => (b.take w).sum :: chunkSums ws (b.drop w)

/-- Fold `groupSums` over a top-down list of levels: `wchain ls ws` is the
width list (bottom-descendant counts) of the level sitting above all of `ls`,
starting from bottom widths `ws`. -/
def wchain : List (List ℕ) → List ℕ → List ℕ
  | [], ws => ws
  | l :: ls, ws => groupSums l (wchain ls ws)

/-- Fold `groupSums` over a bottom-up list of levels (left to right). -/
def applyGroups : List (List ℕ) → List ℕ → List ℕ
  | [], ws => ws
  | l :: ls, ws => applyGroups ls (groupSums l ws)

/-- The group-sum rows produced by one pass of the `to_sum_mat` inner loop over
`bl`, ignoring the all-zero bootstrap. -/
def groupRows (cols : ℕ) (bl : List (List ℚ)) : List ℕ → ℕ → List (List ℚ)
  | [], _ => []
  | c :: cs, count => colSum cols ((bl.drop count).take c) :: groupRows cols bl cs (count + c)

/-- The stacked level blocks produced by the `to_sum_mat` outer loop on a
bottom-up list of levels, described through `groupSums`: deepest block last. -/
def revBlocks (cols : ℕ) : List (List ℕ) → List ℕ → List (List ℚ)
  | [], _ => []
  | l :: ls, ws => revBlocks cols ls (groupSums l ws) ++ intervalRows cols 0 (groupSums l ws)

/-- The block of per-node descendant sums of level `i` (`0` = root,
`nodes.length` = bottom): one value per node of that level, each the sum of
`b` over the node's consecutive bottom-descendant interval. -/
def specBlock (nodes : List (List ℕ)) (b : List ℚ) (i : ℕ) : List ℚ :=
  chunkSums (wchain (nodes.drop i) (List.replicate (colsOf nodes) 1)) b

/-- The per-node descendant sums of a whole hierarchy, in `to_sum_mat` row
order: level `i = 0` is the root (one value, the total), levels `1 .. L-1` the
interior blocks, and level `i = L` the bottom series themselves. -/
def specSums (nodes : List (List ℕ)) (b : List ℚ) : List ℚ :=
  (List.range (nodes.length + 1)).flatMap
    (fun i => chunkSums (wchain (nodes.drop i) (List.replicate (colsOf nodes) 1)) b)

/-- Number of rows the `to_sum_mat` output devotes to level `i` (`0` = the root
row, `nodes.length` = the bottom identity block). -/
def blockLen (nodes : List (List ℕ)) (i : ℕ) : ℕ :=
  if i = 0 then 1 else if i < nodes.length then (nodes.getD i []).length else colsOf nodes

/-- First row index of level `i` in the `to_sum_mat` output. -/
def rowStart (nodes : List (List ℕ)) : ℕ → ℕ
  | 0 => 0
  | i + 1 => rowStart nodes i + blockLen nodes i

/-- A rectangular row-major matrix: every row has the nominal width. -/
def Rect (A : List (List ℚ)) : Prop := ∀ r ∈ A, r.length = width A

/-- Chain condition for the bottom-up level list consumed by the `to_sum_mat`
loop: each level's child counts are positive and sum to the current number of
nodes, level by level. -/
def ChainOK : List (List ℕ) → List ℕ → Prop
  | [], _ => True
  | l :: ls, ws =>
      l ≠ [] ∧ l.sum = ws.length ∧ (∀ c ∈ l, 0 < c) ∧ ChainOK ls (groupSums l ws)

instance {ε α : Type} [DecidableEq ε] [DecidableEq α] : DecidableEq (Except ε α) :=
  fun x y =>
    match x, y with
    | .error a, .error b =>
        if h : a = b then .isTrue (by rw [h]) else .isFalse (by simp [h])
    | .ok a, .ok b =>
        if h : a = b then .isTrue (by rw [h]) else .isFalse (by simp [h])
    | .error _, .ok _ => .isFalse (by simp)
    | .ok _, .error _ => .isFalse (by simp)

/-- C3 (counterexample): on the level-order structure `[[2],[2,1]]` the claimed
5-row matrix (root, A, A1, A2, B) is NOT what `to_sum_mat` returns. -/
theorem c3_counterexample :
    to_sum_mat [[2], [2, 1]] ≠
      .ok [[1, 1, 1], [1, 1, 0], [1, 0, 0], [0, 1, 0], [0, 0, 1]] := by
  decide

/-- C3 (amended): on `[[2],[2,1]]`, `to_sum_mat` returns the 6-row, 3-column
matrix whose rows are root `[1,1,1]`, A `[1,1,0]`, B-as-level-1-node `[0,0,1]`,
A1 `[1,0,0]`, A2 `[0,1,0]` and B-as-bottom-node `[0,0,1]`: the leaf B of the
non-uniform-depth hierarchy contributes a row at its own level and again in the
bottom identity block. -/
theorem c3_to_sum_mat_concrete :
    to_sum_mat [[2], [2, 1]] =
      .ok [[1, 1, 1], [1, 1, 0], [0, 0, 1], [1, 0, 0], [0, 1, 0], [0, 0, 1]] := by
  decide

/-- C5 (code evaluated at the failing input): with the mapping
`{a: [0], b: [5]}` and `keys` omitted, `y_hat_matrix` returns a single-column
matrix `[[5]]` instead of the claimed one-column-per-key matrix `[[0, 5]]`:
the `np.all(y_hat_mat == 0)` bootstrap discards the all-zero first column. -/
theorem c5_zero_column_dropped :
    y_hat_matrix [("a", [0]), ("b", [5])] none = .ok [[5]] := by
  decide

/-- C7 (counterexample): the structure `[[2],[3]]` is malformed (the children
counts at level 0 sum to 2, but level 1 has 1 node), yet `to_sum_mat` raises no
error at all: it silently returns a matrix (with a duplicated all-ones row). -/
theorem c7_counterexample :
    ([2] : List ℕ).sum ≠ ([3] : List ℕ).length ∧
      to_sum_mat [[2], [3]] =
        .ok [[1, 1, 1], [1, 1, 1], [1, 0, 0], [0, 1, 0], [0, 0, 1]] := by
  constructor
  · decide
  · decide

/-- C7 (amended): `to_sum_mat` performs no structural validation whatsoever:
every non-empty level-order structure, malformed or not, produces a silently
returned matrix, and the only failing input is the empty hierarchy, which
raises a plain `IndexError` (from `num_at_level[-1]`), not a `StructureError`. -/
theorem c7_no_validation :
    (∀ nodes : List (List ℕ), nodes ≠ [] → ∃ M, to_sum_mat nodes = .ok M) ∧
      to_sum_mat [] = .error .indexError := by
  constructor
  · intro nodes h
    match nodes with
    | [] => exact absurd rfl h
    | n0 :: rest => exact ⟨_, rfl⟩
  · rfl

/-- C7 (witness): the amended theorem applied at the non-empty structure
`[[3]]`. -/
theorem c7_witness : ([[3]] : List (List ℕ)) ≠ [] ∧ ∃ M, to_sum_mat [[3]] = .ok M :=
  ⟨by decide, c7_no_validation.1 [[3]] (by decide)⟩

/-- C8 (counterexample): with root forecast `[10]` and a sibling group whose
base forecasts `[2]` and `[-2]` sum to zero, `forecast_proportions` does NOT
fail with an explicit error: it returns successfully with non-finite
(`NaN`/`inf`, modelled `none`) entries in the sibling columns. -/
theorem c8_counterexample :
    forecast_proportions [[10], [2], [-2]] [[2]] = .ok [[some 10, none, none]] := by
  decide

/-- C8 (amended): `forecast_proportions` performs no zero-denominator check:
whenever a sibling group's base forecasts sum to zero at a horizon step, the
corresponding output entries are non-finite (`NaN`/`inf`, modelled `none`) and
the function still returns successfully instead of raising an error. -/
theorem c8_zero_sibling_sum_silent (r a b : ℚ) (hsum : a + b = 0) :
    forecast_proportions [[r], [a], [b]] [[2]] = .ok [[some r, none, none]] := by
  simp [forecast_proportions, fpGo, sliceKeys, optDivQ, optMul,
    List.range_succ, add_zero, hsum]

/-- C8 (witness): the amended theorem at root forecast `[10]` and sibling base
forecasts `[2]` and `[-2]`. -/
theorem c8_witness :
    (2 : ℚ) + -2 = 0 ∧
      forecast_proportions [[10], [2], [-2]] [[2]] = .ok [[some 10, none, none]] :=
  ⟨by norm_num, c8_zero_sibling_sum_silent 10 2 (-2) (by norm_num)⟩

/-- C4: for method WLSV, `optimal_combination` builds exactly the claimed
diagonal weight matrix `W` (`wlsvClaimW`: mse values in key order, reversed,
each with `1e-7` added — the source adds first and flips second, which yields
the same list) and returns the base forecast rows projected through
`P = S (Sᵀ W⁻¹ S)⁻¹ Sᵀ W⁻¹`, the same `P` formula as WLSS with this `W`.  The
hypotheses name the successfully computed pieces: the assembled base forecast
matrix and the two matrix inverses. -/
theorem c4_wlsv_weights (forecasts : List (String × List ℚ))
    (S : List (List ℚ)) (mse : List (String × ℚ)) (hat winv inner : List (List ℚ))
    (hy : y_hat_matrix forecasts none = .ok hat)
    (hmse : mse ≠ [])
    (hW : minvE (wlsvClaimW mse) = .ok winv)
    (hinner : minvE (matMul (matMul (transposeM S) winv) S) = .ok inner) :
    optimal_combination forecasts S "WLSV" mse =
      project hat S (matMul (matMul (matMul S inner) (transposeM S)) winv) := by
  have hdiag : diagMat (((mse.map (fun kv => kv.2)).map (fun x => x + wlsvEps)).reverse) =
      wlsvClaimW mse := by
    unfold wlsvClaimW wlsvEps
    rw [List.map_reverse]
  have hne : mse.isEmpty = false := by
    cases mse with
    | nil => exact absurd rfl hmse
    | cons a l => rfl
  unfold optimal_combination
  simp only [hy]
  rw [if_neg (show ("WLSV" : String) ≠ "OLS" by decide)]
  rw [if_neg (show ("WLSV" : String) ≠ "WLSS" by decide)]
  rw [if_pos trivial]
  rw [if_neg (show ¬(mse.isEmpty = true) by simp [hne])]
  rw [hdiag]
  simp only [ocTail, hW, hinner]

/-- C4 (witness): with mse values `9999999/10000000` for every series, the
claimed `W` is the identity, and the WLSV output on base forecasts
`[12, 3, 6]` over `S = [[1,1],[1,0],[0,1]]` is the reconciled `[[11, 4, 7]]`. -/
theorem c4_witness :
    optimal_combination [("t", [12]), ("a", [3]), ("b", [6])] [[1, 1], [1, 0], [0, 1]]
      "WLSV" [("t", 9999999/10000000), ("a", 9999999/10000000), ("b", 9999999/10000000)] =
      .ok [[11, 4, 7]] := by
  have h := c4_wlsv_weights [("t", [12]), ("a", [3]), ("b", [6])]
    [[1, 1], [1, 0], [0, 1]]
    [("t", 9999999/10000000), ("a", 9999999/10000000), ("b", 9999999/10000000)]
    [[12, 3, 6]] [[1, 0, 0], [0, 1, 0], [0, 0, 1]]
    [[2/3, -1/3], [-1/3, 2/3]]
    (by decide) (by decide) (by decide) (by decide)
  rw [h]
  decide

/-- Helper: the `y_hat_matrix` loop never raises the invalid-method error. -/
theorem yhatGo_ne_invalidMethod (f : List (String × List ℚ)) (ks : List String)
    (acc : List (List ℚ)) : yhatGo f ks acc ≠ .error .invalidMethod := by
  induction ks generalizing acc with
  | nil => simp [yhatGo]
  | cons k ks ih =>
      cases h : List.lookup k f with
      | none => simp [yhatGo, h]
      | some v =>
          by_cases hz : allZero acc = true
          · simpa [yhatGo, h, hz] using ih _
          · by_cases hl : acc.length = v.length
            · simpa [yhatGo, h, hz, hl] using ih _
            · simp [yhatGo, h, hz, hl]

/-- Helper: `y_hat_matrix` never raises the invalid-method error. -/
theorem y_hat_matrix_ne_invalidMethod (f : List (String × List ℚ))
    (keys : Option (List String)) : y_hat_matrix f keys ≠ .error .invalidMethod := by
  unfold y_hat_matrix
  cases f with
  | nil => simp
  | cons p rest => exact yhatGo_ne_invalidMethod _ _ _

/-- Helper: `project` never raises the invalid-method error. -/
theorem project_ne_invalidMethod (h s o : List (List ℚ)) :
    project h s o ≠ .error .invalidMethod := by
  unfold project
  split <;> simp

/-- Helper: a failing `np.linalg.inv` raises only the singular-matrix error. -/
theorem minvE_error_singular (A : List (List ℚ)) (e : HtsError)
    (h : minvE A = .error e) : e = .singular := by
  unfold minvE at h
  cases hm : minv A with
  | none => rw [hm] at h; cases h; rfl
  | some B => rw [hm] at h; cases h

/-- Helper: the shared projection tail of `optimal_combination` never raises
the invalid-method error. -/
theorem ocTail_ne_invalidMethod (hat_mat sum_mat transpose diag : List (List ℚ)) :
    ocTail hat_mat sum_mat transpose diag ≠ .error .invalidMethod := by
  unfold ocTail
  cases hi : minvE diag with
  | error e =>
      have := minvE_error_singular _ _ hi
      subst this
      simp
  | ok invd =>
      cases hi2 : minvE (matMul (matMul transpose invd) sum_mat) with
      | error e =>
          have := minvE_error_singular _ _ hi2
          subst this
          simp [hi2]
      | ok inv1 => simp [hi2, project_ne_invalidMethod]

/-- C6: `optimal_combination` raises the invalid-method `ValueError` for every
method string outside `{OLS, WLSS, WLSV}` (provided the base forecast matrix
assembly, which the source runs first, succeeds), and never raises it for a
method inside the set; likewise `proportions` raises it for every method
outside `{APH, PHA}` (provided the root forecast `forecasts[0]` exists, which
the source reads first) and never raises it for `APH`/`PHA`. -/
theorem c6_invalid_method_dispatch :
    (∀ (forecasts : List (String × List ℚ)) (S : List (List ℚ))
        (mse : List (String × ℚ)) (method : String),
        (∃ hat, y_hat_matrix forecasts none = .ok hat) →
        method ≠ "OLS" → method ≠ "WLSS" → method ≠ "WLSV" →
        optimal_combination forecasts S method mse = .error .invalidMethod) ∧
    (∀ (forecasts : List (String × List ℚ)) (S : List (List ℚ))
        (mse : List (String × ℚ)) (method : String),
        method = "OLS" ∨ method = "WLSS" ∨ method = "WLSV" →
        optimal_combination forecasts S method mse ≠ .error .invalidMethod) ∧
    (∀ (df : List (List ℚ)) (forecasts : List (List ℚ)) (S : List (List ℚ))
        (method : String),
        forecasts ≠ [] → method ≠ "APH" → method ≠ "PHA" →
        proportions df forecasts S method = .error .invalidMethod) ∧
    (∀ (df : List (List ℚ)) (forecasts : List (List ℚ)) (S : List (List ℚ))
        (method : String),
        method = "APH" ∨ method = "PHA" →
        proportions df forecasts S method ≠ .error .invalidMethod) := by
  refine ⟨?_, ?_, ?_, ?_⟩
  · intro forecasts S mse method hhat h1 h2 h3
    obtain ⟨hat, hh⟩ := hhat
    unfold optimal_combination
    rw [hh]
    simp [h1, h2, h3]
  · intro forecasts S mse method hm
    unfold optimal_combination
    cases hy : y_hat_matrix forecasts none with
    | error e =>
        simp only []
        intro hc
        cases hc
        exact y_hat_matrix_ne_invalidMethod forecasts none hy
    | ok hat =>
        rcases hm with hm | hm | hm <;> subst hm <;> simp only [reduceIte]
        · cases hi : minvE (matMul (transposeM S) S) with
          | error e =>
              have := minvE_error_singular _ _ hi
              subst this
              simp
          | ok inv1 => simp [project_ne_invalidMethod]
        · exact ocTail_ne_invalidMethod _ _ _ _
        · by_cases hme : mse.isEmpty
          · simp [hme]
          · simp only [hme, reduceIte, Bool.false_eq_true, if_false]
            exact ocTail_ne_invalidMethod _ _ _ _
  · intro df forecasts S method hf h1 h2
    unfold proportions
    cases forecasts with
    | nil => exact absurd rfl hf
    | cons f0 rest => simp [h1, h2]
  · intro df forecasts S method hm
    unfold proportions
    cases forecasts with
    | nil => simp
    | cons f0 rest => rcases hm with hm | hm <;> subst hm <;> simp

/-- C6 (witness): concrete instances — `FOO` and `ZZZ` raise the
invalid-method error, `OLS` and `PHA` do not. -/
theorem c6_witness :
    (∃ hat, y_hat_matrix [("a", [1])] none = .ok hat) ∧
      optimal_combination [("a", [1])] [[1]] "FOO" [] = .error .invalidMethod ∧
      optimal_combination [("a", [1])] [[1]] "OLS" [] ≠ .error .invalidMethod ∧
      proportions [[0, 1, 1]] [[1]] [[1]] "ZZZ" = .error .invalidMethod ∧
      proportions [[0, 1, 1]] [[1]] [[1]] "PHA" ≠ .error .invalidMethod :=
  ⟨⟨[[1]], by decide⟩,
    c6_invalid_method_dispatch.1 [("a", [1])] [[1]] [] "FOO" ⟨[[1]], by decide⟩
      (by decide) (by decide) (by decide),
    c6_invalid_method_dispatch.2.1 [("a", [1])] [[1]] [] "OLS" (Or.inl rfl),
    c6_invalid_method_dispatch.2.2.1 [[0, 1, 1]] [[1]] [[1]] "ZZZ" (by decide)
      (by decide) (by decide),
    c6_invalid_method_dispatch.2.2.2 [[0, 1, 1]] [[1]] [[1]] "PHA" (Or.inr rfl)⟩

/-- Helper: reading inside a `take` of a `drop` is reading at the shifted
index, for in-range positions. -/
theorem getD_slice (row : List ℚ) (a n j : ℕ) (hj : j < n) :
    ((row.drop a).take n).getD j 0 = row.getD (a + j) 0 := by
  simp [List.getD_eq_getElem?_getD, List.getElem?_take_of_lt hj, List.getElem?_drop]

/-- Helper: summing the columns of a table of sliced rows is summing the
original rows at shifted positions. -/
theorem colSum_map_slice (df : List (List ℚ)) (a n : ℕ) :
    colSum n (df.map (fun row => (row.drop a).take n)) =
      (List.range n).map (fun j => (df.map (fun row => row.getD (a + j) 0)).sum) := by
  unfold colSum
  refine List.map_congr_left fun j hj => ?_
  have hjlt := List.mem_range.mp hj
  refine congrArg _ ?_
  rw [List.map_map]
  exact List.map_congr_left fun row hrow => by
    simpa using getD_slice row a n j hjlt

/-- C9: for the PHA method, `proportions` returns exactly the
[horizon × bottom-series-count] matrix of the claim: root forecast at step `h`
times (series `j`'s historical sum over the root's historical sum).  The
hypotheses say the call is well-formed: the forecasts dict has the root at key
0, the history table rows are at least `n_cols` wide, there is at least one
history row, and the bottom-series count does not exceed `n_cols`. -/
theorem c9_pha_proportions (df forecasts sum_mat : List (List ℚ)) (f0 : List ℚ)
    (hf : forecasts.head? = some f0)
    (hw : ∀ row ∈ df, forecasts.length + 1 ≤ row.length)
    (hnb : width sum_mat ≤ forecasts.length + 1)
    (hdf : df ≠ []) :
    proportions df forecasts sum_mat "PHA" =
      .ok (phaClaim df f0 (width sum_mat) (forecasts.length + 1)) := by
  cases forecasts with
  | nil => simp at hf
  | cons g rest =>
      cases df with
      | nil => exact absurd rfl hdf
      | cons d0 dtl =>
          have hf0 : g = f0 := by simpa using hf
          subst hf0
          have h0 := hw d0 (by simp)
          have hnb2 : (sum_mat.headD []).length ≤ (g :: rest).length + 1 := hnb
          unfold proportions
          simp only [List.head?_cons]
          rw [if_neg (by decide)]
          rw [if_pos (by trivial)]
          have hwidth :
              width ((d0 :: dtl).map (fun row =>
                (row.drop ((g :: rest).length + 1 - width sum_mat)).take (width sum_mat))) =
              width sum_mat := by
            simp only [List.map_cons, width, List.headD_cons, List.length_take,
              List.length_drop]
            omega
          rw [hwidth, colSum_map_slice]
          unfold phaClaim
          simp [List.map_map, Function.comp]

/-- C9 (witness): history with one row `[0, 10, 3, 7]` (time, root = 10,
bottom series at 3 and 7: a 30%/70% split) and root forecast `[100]` yield the
bottom forecasts `[30, 70]`. -/
theorem c9_witness :
    proportions [[0, 10, 3, 7]] [[100], [9], [9]] [[1, 1], [1, 0], [0, 1]] "PHA" =
      .ok [[30, 70]] := by
  have h := c9_pha_proportions [[0, 10, 3, 7]] [[100], [9], [9]]
    [[1, 1], [1, 0], [0, 1]] [100] (by decide) (by decide) (by decide) (by decide)
  rw [h]
  decide

/-- C10: `y_hat_matrix` reads the mapping's first key to size its initial
matrix even when an explicit `keys` sequence is supplied, so an empty forecasts
mapping always raises (`IndexError`), and `optimal_combination`, which
assembles the base forecast matrix before anything else, fails the same way on
an empty mapping for every method and mse. -/
theorem c10_empty_forecasts_error
    (keys : Option (List String)) (S : List (List ℚ)) (method : String)
    (mse : List (String × ℚ)) :
    y_hat_matrix [] keys = .error .indexError ∧
      optimal_combination [] S method mse = .error .indexError := by
  constructor
  · rfl
  · rfl

/-- Helper: reading a mapped range at an in-range index. -/
theorem getD_range_map (f : ℕ → ℚ) (cols j : ℕ) (h : j < cols) :
    ((List.range cols).map f).getD j 0 = f j := by
  rw [List.getD_eq_getElem?_getD]
  simp [List.getElem?_range h]

/-- Helper: reading every index of a list reproduces the list. -/
theorem range_map_getD (xs : List ℚ) :
    (List.range xs.length).map (fun j => xs.getD j 0) = xs := by
  refine List.ext_getElem (by simp) ?_
  intro j h1 h2
  simp [List.getD_eq_getElem?_getD, List.getElem?_eq_getElem h2]

/-- Helper: dot product against an empty right factor. -/
theorem dot_nil_right (xs : List ℚ) : dot xs [] = 0 := by
  simp [dot]

/-- Helper: a zero block contributes nothing to a dot product. -/
theorem dot_replicate_zero (k : ℕ) (v : List ℚ) : dot (List.replicate k 0) v = 0 := by
  induction k generalizing v with
  | zero => simp [dot]
  | succ k ih =>
      cases v with
      | nil => simp [dot]
      | cons u v => simp [dot, List.replicate_succ] at ih ⊢; simpa using ih v

/-- Helper: dot product of two cons cells. -/
theorem dot_cons (a u : ℚ) (xs v : List ℚ) : dot (a :: xs) (u :: v) = a * u + dot xs v := by
  simp [dot]

/-- Helper: a ones block sums the aligned prefix. -/
theorem dot_replicate_one (k : ℕ) (v : List ℚ) :
    dot (List.replicate k 1) v = (v.take k).sum := by
  induction k generalizing v with
  | zero => simp [dot]
  | succ k ih =>
      cases v with
      | nil => simp [dot]
      | cons u v =>
          rw [List.replicate_succ, dot_cons, ih, List.take_succ_cons, List.sum_cons]
          ring

/-- Helper: a dot product splits along an append of the left factor. -/
theorem dot_append (xs ys v : List ℚ) :
    dot (xs ++ ys) v = dot xs v + dot ys (v.drop xs.length) := by
  induction xs generalizing v with
  | nil => simp [dot]
  | cons a xs ih =>
      cases v with
      | nil => simp [dot, dot_nil_right]
      | cons u v =>
          rw [List.cons_append, dot_cons, dot_cons, ih, List.length_cons,
            List.drop_succ_cons]
          ring

/-- Helper: reading a zero block never yields anything but zero. -/
theorem getD_replicate_zero (r n : ℕ) : (List.replicate r (0 : ℚ)).getD n 0 = 0 := by
  rw [List.getD_eq_getElem?_getD, List.getElem?_replicate]
  split <;> rfl

/-- Helper: entries of an interval indicator row. -/
theorem indRow_getD (cols lo w j : ℕ) :
    (indRow cols lo w).getD j 0 = if lo ≤ j ∧ j < lo + w then 1 else 0 := by
  unfold indRow
  rcases Nat.lt_or_ge j lo with hj | hj
  · rw [List.getD_append _ _ _ _ (by simp; omega),
      List.getD_append _ _ _ _ (by simp; omega), getD_replicate_zero, if_neg (by omega)]
  · rcases Nat.lt_or_ge j (lo + w) with hj2 | hj2
    · rw [List.getD_append _ _ _ _ (by simp; omega),
        List.getD_append_right _ _ _ _ (by simp; omega)]
      simp only [List.length_replicate]
      rw [List.getD_eq_getElem?_getD, List.getElem?_replicate, if_pos (by omega),
        if_pos ⟨hj, hj2⟩]
      rfl
    · rw [List.getD_append_right _ _ _ _ (by simp; omega)]
      simp only [List.length_append, List.length_replicate]
      rw [getD_replicate_zero, if_neg (by omega)]

/-- Helper: length of an interval indicator row. -/
theorem indRow_length (cols lo w : ℕ) (hlw : lo + w ≤ cols) :
    (indRow cols lo w).length = cols := by
  simp [indRow]
  omega

/-- Helper: dotting an interval indicator row extracts the chunk sum. -/
theorem dot_indRow (cols lo w : ℕ) (b : List ℚ) :
    dot (indRow cols lo w) b = ((b.drop lo).take w).sum := by
  unfold indRow
  rw [dot_append, dot_append, dot_replicate_zero, dot_replicate_one,
    dot_replicate_zero, List.length_replicate]
  simp

/-- Helper: length of an interval row stack. -/
theorem intervalRows_length (cols : ℕ) : ∀ (ws : List ℕ) (lo : ℕ),
    (intervalRows cols lo ws).length = ws.length := by
  intro ws
  induction ws with
  | nil => intro lo; rfl
  | cons w ws ih => intro lo; simp [intervalRows, ih]

/-- Helper: dropping rows of an interval stack shifts the starting column by
the dropped widths. -/
theorem intervalRows_drop (cols : ℕ) : ∀ (ws : List ℕ) (k lo : ℕ),
    (intervalRows cols lo ws).drop k =
      intervalRows cols (lo + (ws.take k).sum) (ws.drop k) := by
  intro ws
  induction ws with
  | nil => intro k lo; simp [intervalRows]
  | cons w ws ih =>
      intro k lo
      cases k with
      | zero => simp [intervalRows]
      | succ k =>
          simp only [intervalRows, List.drop_succ_cons, List.take_succ_cons,
            List.sum_cons]
          rw [ih]
          ring_nf

/-- Helper: taking rows of an interval stack keeps the starting column. -/
theorem intervalRows_take (cols : ℕ) : ∀ (ws : List ℕ) (k lo : ℕ),
    (intervalRows cols lo ws).take k = intervalRows cols lo (ws.take k) := by
  intro ws
  induction ws with
  | nil => intro k lo; simp [intervalRows]
  | cons w ws ih =>
      intro k lo
      cases k with
      | zero => simp [intervalRows]
      | succ k => simp [intervalRows, ih]

/-- Helper: the per-column sum over an interval stack is the indicator of the
merged interval. -/
theorem sum_getD_intervalRows (cols : ℕ) : ∀ (ws : List ℕ) (lo j : ℕ),
    (((intervalRows cols lo ws).map (fun r => r.getD j 0)).sum : ℚ) =
      if lo ≤ j ∧ j < lo + ws.sum then 1 else 0 := by
  intro ws
  induction ws with
  | nil =>
      intro lo j
      rw [show ([] : List ℕ).sum = 0 from rfl, if_neg (by omega)]
      rfl
  | cons w ws ih =>
      intro lo j
      simp only [intervalRows, List.map_cons, List.sum_cons, List.sum_cons]
      rw [indRow_getD, ih]
      split_ifs <;> first | (exfalso; omega) | norm_num

/-- Helper: an indicator row as a mapped range, provided it fits the width. -/
theorem indRow_eq_range_map (cols lo w : ℕ) (hlw : lo + w ≤ cols) :
    indRow cols lo w =
      (List.range cols).map (fun j => if lo ≤ j ∧ j < lo + w then (1 : ℚ) else 0) := by
  refine List.ext_getElem (by rw [indRow_length cols lo w hlw]; simp) ?_
  intro j h1 h2
  have hj : j < cols := by simpa using h2
  have := indRow_getD cols lo w j
  rw [List.getD_eq_getElem _ _ h1] at this
  rw [this]
  simp [List.getElem_map, List.getElem_range]

/-- Helper: the column-wise sum of an interval stack is the indicator row of
the merged interval. -/
theorem colSum_intervalRows (cols : ℕ) (ws : List ℕ) (lo : ℕ)
    (hlw : lo + ws.sum ≤ cols) :
    colSum cols (intervalRows cols lo ws) = indRow cols lo ws.sum := by
  rw [indRow_eq_range_map cols lo ws.sum hlw]
  unfold colSum
  exact List.map_congr_left fun j hj => sum_getD_intervalRows cols ws lo j

/-- Helper: prefix sums never exceed the total. -/
theorem sum_take_le (ws : List ℕ) (k : ℕ) : (ws.take k).sum ≤ ws.sum := by
  have := List.sum_take_add_sum_drop ws k
  omega

/-- Helper: unfolding equation of `intervalRows` on a cons cell. -/
theorem intervalRows_cons (cols lo w : ℕ) (ws : List ℕ) :
    intervalRows cols lo (w :: ws) = indRow cols lo w :: intervalRows cols (lo + w) ws :=
  rfl

/-- Helper: unfolding equation of `revBlocks` on a cons cell. -/
theorem revBlocks_cons (cols : ℕ) (l : List ℕ) (ls : List (List ℕ)) (ws : List ℕ) :
    revBlocks cols (l :: ls) ws =
      revBlocks cols ls (groupSums l ws) ++ intervalRows cols 0 (groupSums l ws) :=
  rfl

/-- Helper: unfolding equation of `groupRows` on a cons cell. -/
theorem groupRows_cons (cols : ℕ) (bl : List (List ℚ)) (c : ℕ) (cs : List ℕ)
    (count : ℕ) :
    groupRows cols bl (c :: cs) count =
      colSum cols ((bl.drop count).take c) :: groupRows cols bl cs (count + c) :=
  rfl

/-- Helper: the inner `to_sum_mat` loop over an interval stack produces the
interval stack of the grouped widths. -/
theorem groupRows_spec (cols : ℕ) (ws : List ℕ) (hws : ws.sum ≤ cols) :
    ∀ (cs : List ℕ) (count : ℕ),
    groupRows cols (intervalRows cols 0 ws) cs count =
      intervalRows cols ((ws.take count).sum) (groupSums cs (ws.drop count)) := by
  intro cs
  induction cs with
  | nil => intro count; rfl
  | cons c cs ih =>
      intro count
      have hb : (ws.take count).sum + ((ws.drop count).take c).sum ≤ cols := by
        calc (ws.take count).sum + ((ws.drop count).take c).sum
            = (ws.take (count + c)).sum := by
              rw [List.take_add, List.sum_append]
          _ ≤ ws.sum := sum_take_le ws (count + c)
          _ ≤ cols := hws
      unfold groupRows groupSums
      rw [intervalRows_drop, intervalRows_take, Nat.zero_add,
        colSum_intervalRows cols _ _ hb, intervalRows_cons, ih (count + c),
        List.take_add, List.sum_append, List.drop_drop]

/-- Helper: `np.all(B == 0)` over an append. -/
theorem allZero_append (B C : List (List ℚ)) :
    allZero (B ++ C) = (allZero B && allZero C) := by
  simp [allZero, List.all_append]

/-- Helper: a single-row matrix holding a non-trivial indicator row is not all
zero. -/
theorem allZero_indRow (cols w : ℕ) (hw : 0 < w) :
    allZero [indRow cols 0 w] = false := by
  cases w with
  | zero => omega
  | succ w => simp [allZero, indRow, List.replicate_succ]

/-- Helper: once the accumulator is nonzero, the `to_sum_mat` inner loop just
appends the group-sum rows. -/
theorem buildBGo_notZero (cols : ℕ) (bl : List (List ℚ)) :
    ∀ (cs : List ℕ) (count : ℕ) (B : List (List ℚ)), allZero B = false →
    buildBGo cols bl cs count B = B ++ groupRows cols bl cs count := by
  intro cs
  induction cs with
  | nil => intro count B h; simp [buildBGo, groupRows]
  | cons c cs ih =>
      intro count B h
      unfold buildBGo groupRows
      simp only [h, Bool.false_eq_true, if_false]
      rw [ih (count + c) _ (by rw [allZero_append, h]; rfl)]
      simp

/-- Helper: `buildB` on a nonzero first group is exactly the group-sum rows. -/
theorem buildB_spec (cols : ℕ) (bl : List (List ℚ)) (c : ℕ) (cs : List ℕ)
    (h : allZero [colSum cols (bl.take c)] = false) :
    buildB cols bl (c :: cs) = groupRows cols bl (c :: cs) 0 := by
  unfold buildB buildBGo
  have hz : allZero [List.replicate cols 0] = true := by simp [allZero]
  simp only [hz, if_true, List.drop_zero, Nat.zero_add]
  rw [buildBGo_notZero cols bl cs c _ h, groupRows_cons]
  simp

/-- Helper: a non-empty list of positive naturals has positive sum. -/
theorem sum_pos_of_mem (l : List ℕ) (hne : l ≠ []) (hp : ∀ x ∈ l, 0 < x) :
    0 < l.sum := by
  cases l with
  | nil => exact absurd rfl hne
  | cons x xs =>
      have hx : 0 < x := hp x (by simp)
      simp only [List.sum_cons]
      omega

/-- Helper: a positive-length prefix of a long-enough list is non-empty. -/
theorem take_ne_nil_of_le (ws : List ℕ) (c : ℕ) (hc : 0 < c) (hle : c ≤ ws.length) :
    ws.take c ≠ [] := by
  intro h
  have h2 : (ws.take c).length = 0 := by rw [h]; rfl
  rw [List.length_take] at h2
  omega

/-- Helper: `groupSums` produces one value per group. -/
theorem groupSums_length : ∀ (cs ws : List ℕ), (groupSums cs ws).length = cs.length := by
  intro cs
  induction cs with
  | nil => intro ws; rfl
  | cons c cs ih => intro ws; simp [groupSums, ih]

/-- Helper: `groupSums` sums to the total of the consumed prefix. -/
theorem groupSums_sum : ∀ (cs ws : List ℕ), (groupSums cs ws).sum = (ws.take cs.sum).sum := by
  intro cs
  induction cs with
  | nil => intro ws; rfl
  | cons c cs ih =>
      intro ws
      simp only [groupSums, List.sum_cons, ih, List.take_add, List.sum_append]

/-- Helper: `groupSums` of positive groups over positive widths is positive. -/
theorem groupSums_pos : ∀ (cs ws : List ℕ), cs.sum ≤ ws.length →
    (∀ c ∈ cs, 0 < c) → (∀ w ∈ ws, 0 < w) → ∀ g ∈ groupSums cs ws, 0 < g := by
  intro cs
  induction cs with
  | nil => intro ws _ _ _ g hg; simp [groupSums] at hg
  | cons c cs ih =>
      intro ws hlen hc hw g hg
      simp only [groupSums, List.mem_cons] at hg
      rcases hg with hg | hg
      · subst hg
        have hc0 : 0 < c := hc c (by simp)
        have hcle : c ≤ ws.length := by
          rw [List.sum_cons] at hlen
          omega
        exact sum_pos_of_mem _ (take_ne_nil_of_le ws c hc0 hcle)
          (fun x hx => hw x (List.mem_of_mem_take hx))
      · refine ih (ws.drop c) ?_ (fun x hx => hc x (by simp [hx]))
          (fun w hw2 => hw w (List.mem_of_mem_drop hw2)) g hg
        simp only [List.sum_cons] at hlen
        simp only [List.length_drop]
        omega

/-- Helper: the outer `to_sum_mat` loop on a valid chain stacks the
`groupSums` interval blocks above the accumulated matrix. -/
theorem tsLoop_spec (cols : ℕ) : ∀ (ls : List (List ℕ)) (ws : List ℕ)
    (F : List (List ℚ)), ws.sum = cols → (∀ w ∈ ws, 0 < w) → ChainOK ls ws →
    tsLoop cols ls (intervalRows cols 0 ws) F = revBlocks cols ls ws ++ F := by
  intro ls
  induction ls with
  | nil => intro ws F _ _ _; simp [tsLoop, revBlocks]
  | cons l ls ih =>
      intro ws F hsum hpos hchain
      obtain ⟨hlne, hlen, hcpos, hrest⟩ := hchain
      cases l with
      | nil => exact absurd rfl hlne
      | cons c cs =>
          unfold tsLoop
          have hfirst : allZero [colSum cols ((intervalRows cols 0 ws).take c)] = false := by
            rw [intervalRows_take]
            rw [colSum_intervalRows cols _ _ (by
              have := sum_take_le ws c
              omega)]
            refine allZero_indRow cols _ ?_
            have hc0 : 0 < c := hcpos c (by simp)
            have hcle : c ≤ ws.length := by
              rw [List.sum_cons] at hlen
              omega
            exact sum_pos_of_mem _ (take_ne_nil_of_le ws c hc0 hcle)
              (fun x hx => hpos x (List.mem_of_mem_take hx))
          rw [buildB_spec cols _ c cs hfirst]
          rw [groupRows_spec cols ws (le_of_eq hsum) (c :: cs) 0]
          simp only [List.take_zero, List.sum_nil, List.drop_zero]
          have hws2 : (groupSums (c :: cs) ws).sum = cols := by
            rw [groupSums_sum, hlen, List.take_length]
            exact hsum
          have hpos2 : ∀ w ∈ groupSums (c :: cs) ws, 0 < w :=
            groupSums_pos (c :: cs) ws (le_of_eq hlen) hcpos hpos
          rw [ih (groupSums (c :: cs) ws) _ hws2 hpos2 hrest]
          rw [revBlocks_cons, List.append_assoc]

/-- Helper: unpacking the boolean validity check of a level-order structure. -/
theorem validNodes_spec (nodes : List (List ℕ)) (h : validNodes nodes = true) :
    nodes ≠ [] ∧ (nodes.headD []).length = 1 ∧
      (∀ i, i + 1 < nodes.length → (nodes.getD i []).sum = (nodes.getD (i + 1) []).length) ∧
      (∀ l ∈ nodes, l ≠ [] ∧ ∀ c ∈ l, 0 < c) := by
  unfold validNodes at h
  simp only [Bool.and_eq_true, Bool.not_eq_true', List.all_eq_true, beq_iff_eq,
    decide_eq_true_eq, List.mem_range] at h
  obtain ⟨⟨⟨hne, hhead⟩, hlink⟩, hpos⟩ := h
  refine ⟨by simpa [List.isEmpty_iff] using hne, hhead, ?_, ?_⟩
  · intro i hi
    exact hlink i (by omega)
  · intro l hl
    obtain ⟨hlne, hlpos⟩ := hpos l hl
    exact ⟨by simpa [List.isEmpty_iff] using hlne, fun c hc => hlpos c hc⟩

/-- Helper: `wchain` on a cons cell. -/
theorem wchain_cons (l : List ℕ) (ls : List (List ℕ)) (ws : List ℕ) :
    wchain (l :: ls) ws = groupSums l (wchain ls ws) := rfl

/-- Helper: `applyGroups` distributes over an append. -/
theorem applyGroups_append : ∀ (xs ys : List (List ℕ)) (ws : List ℕ),
    applyGroups (xs ++ ys) ws = applyGroups ys (applyGroups xs ws) := by
  intro xs
  induction xs with
  | nil => intro ys ws; rfl
  | cons x xs ih => intro ys ws; simp [applyGroups, ih]

/-- Helper: folding groups over a reversed top-down list computes `wchain`. -/
theorem applyGroups_reverse : ∀ (ms : List (List ℕ)) (ws : List ℕ),
    applyGroups ms.reverse ws = wchain ms ws := by
  intro ms
  induction ms with
  | nil => intro ws; rfl
  | cons m ms ih =>
      intro ws
      rw [List.reverse_cons, applyGroups_append, ih, wchain_cons]
      rfl

/-- Helper: the chain condition splits along an append. -/
theorem chainOK_append : ∀ (xs ys : List (List ℕ)) (ws : List ℕ),
    ChainOK (xs ++ ys) ws ↔ ChainOK xs ws ∧ ChainOK ys (applyGroups xs ws) := by
  intro xs
  induction xs with
  | nil => intro ys ws; simp [ChainOK, applyGroups]
  | cons x xs ih =>
      intro ys ws
      simp only [List.cons_append, ChainOK, applyGroups]
      rw [show xs.append ys = xs ++ ys from rfl, ih]
      tauto

/-- Helper: the last level of a non-empty tail is the last level overall. -/
theorem getLastD_tail (m : List ℕ) (ms : List (List ℕ)) (h : ms ≠ []) :
    ms.getLastD [] = (m :: ms).getLastD [] := by
  rw [List.getLastD_cons]
  cases ms with
  | nil => exact absurd rfl h
  | cons a l =>
      rw [List.getLastD_eq_getLast?, List.getLastD_eq_getLast?]
      cases hl : (a :: l).getLast? with
      | none => simp at hl
      | some x => rfl

/-- Helper: a valid top-down list of levels, reversed, satisfies the bottom-up
chain condition over unit bottom widths. -/
theorem chainOK_reverse (cols : ℕ) : ∀ ms : List (List ℕ),
    (∀ i, i + 1 < ms.length → (ms.getD i []).sum = (ms.getD (i + 1) []).length) →
    (ms ≠ [] → (ms.getLastD []).sum = cols) →
    (∀ l ∈ ms, l ≠ [] ∧ ∀ c ∈ l, 0 < c) →
    ChainOK ms.reverse (List.replicate cols 1) := by
  intro ms
  induction ms with
  | nil => intro _ _ _; exact trivial
  | cons m ms ih =>
      intro hlink hlast hpos
      rw [List.reverse_cons, chainOK_append]
      constructor
      · refine ih (fun i hi => ?_) (fun hne => ?_) (fun l hl => hpos l (by simp [hl]))
        · exact hlink (i + 1) (by simp; omega)
        · rw [getLastD_tail m ms hne]
          exact hlast (by simp)
      · rw [applyGroups_reverse]
        obtain ⟨hmne, hmpos⟩ := hpos m (by simp)
        refine ⟨hmne, ?_, hmpos, trivial⟩
        cases ms with
        | nil =>
            simp only [wchain, List.length_replicate]
            simpa using hlast (by simp)
        | cons m2 ms2 =>
            rw [wchain_cons, groupSums_length]
            have := hlink 0 (by simp)
            simpa using this

/-- Helper: `revBlocks` distributes over an append. -/
theorem revBlocks_append (cols : ℕ) : ∀ (xs ys : List (List ℕ)) (ws : List ℕ),
    revBlocks cols (xs ++ ys) ws =
      revBlocks cols ys (applyGroups xs ws) ++ revBlocks cols xs ws := by
  intro xs
  induction xs with
  | nil => intro ys ws; simp [revBlocks, applyGroups]
  | cons x xs ih =>
      intro ys ws
      rw [List.cons_append, revBlocks_cons, revBlocks_cons, ih]
      simp [applyGroups, List.append_assoc]

/-- Helper: the bottom-up block stack of a reversed top-down level list, as a
top-down concatenation of `wchain` interval blocks. -/
theorem revBlocks_reverse (cols : ℕ) : ∀ (ms : List (List ℕ)) (ws : List ℕ),
    revBlocks cols ms.reverse ws =
      (List.range ms.length).flatMap
        (fun i => intervalRows cols 0 (wchain (ms.drop i) ws)) := by
  intro ms
  induction ms with
  | nil => intro ws; rfl
  | cons m ms ih =>
      intro ws
      rw [List.reverse_cons, revBlocks_append, applyGroups_reverse]
      rw [show revBlocks cols [m] (wchain ms ws) =
        intervalRows cols 0 (groupSums m (wchain ms ws)) from by
          rw [revBlocks_cons]; rfl]
      rw [ih ws]
      simp only [List.length_cons]
      rw [List.range_succ_eq_map, List.flatMap_cons, List.flatMap_map]
      rfl

/-- Helper: a stack of unit-width intervals starting at `lo` is the
corresponding slice of identity rows. -/
theorem intervalRows_replicate_one (cols : ℕ) : ∀ (n lo : ℕ),
    intervalRows cols lo (List.replicate n 1) =
      (List.range n).map (fun i => indRow cols (lo + i) 1) := by
  intro n
  induction n with
  | zero => intro lo; rfl
  | succ n ih =>
      intro lo
      rw [List.replicate_succ, intervalRows_cons, ih, List.range_succ_eq_map,
        List.map_cons, List.map_map]
      refine congrArg₂ _ (by rw [Nat.add_zero]) ?_
      refine List.map_congr_left fun i _ => ?_
      simp only [Function.comp_apply]
      rw [show lo + 1 + i = lo + (i + 1) by omega]

/-- Helper: the identity matrix is the stack of unit intervals. -/
theorem idMat_eq_intervalRows (cols : ℕ) :
    idMat cols = intervalRows cols 0 (List.replicate cols 1) := by
  rw [intervalRows_replicate_one]
  unfold idMat
  refine List.map_congr_left fun i hi => ?_
  have hic : i < cols := List.mem_range.mp hi
  rw [indRow_eq_range_map cols (0 + i) 1 (by omega)]
  refine List.map_congr_left fun j _ => ?_
  refine if_congr ?_ rfl rfl
  omega

/-- Structure of the `to_sum_mat` output on a valid hierarchy: the all-ones
root row, then for each interior level (top-down) one indicator row per node
marking its consecutive bottom-descendant interval, then the bottom identity
block. -/
theorem to_sum_mat_structure (nodes : List (List ℕ)) (h : validNodes nodes = true) :
    to_sum_mat nodes = .ok (List.replicate (colsOf nodes) 1 ::
      ((List.range (nodes.length - 1)).flatMap
        (fun i => intervalRows (colsOf nodes) 0
          (wchain (nodes.drop (i + 1)) (List.replicate (colsOf nodes) 1)))
        ++ idMat (colsOf nodes))) := by
  obtain ⟨hne, hhead, hlink, hpos⟩ := validNodes_spec nodes h
  cases nodes with
  | nil => exact absurd rfl hne
  | cons n0 rest =>
      unfold to_sum_mat
      show Except.ok (List.replicate (colsOf (n0 :: rest)) 1 ::
        tsLoop (colsOf (n0 :: rest)) rest.reverse (idMat (colsOf (n0 :: rest)))
          (idMat (colsOf (n0 :: rest)))) = _
      rw [show tsLoop (colsOf (n0 :: rest)) rest.reverse (idMat (colsOf (n0 :: rest)))
          (idMat (colsOf (n0 :: rest))) =
        revBlocks (colsOf (n0 :: rest)) rest.reverse
            (List.replicate (colsOf (n0 :: rest)) 1) ++ idMat (colsOf (n0 :: rest)) from ?_]
      · rw [revBlocks_reverse]
        simp only [List.length_cons, Nat.add_sub_cancel, List.drop_succ_cons]
      · rw [idMat_eq_intervalRows]
        refine tsLoop_spec (colsOf (n0 :: rest)) rest.reverse
          (List.replicate (colsOf (n0 :: rest)) 1) _ (by simp) (by simp) ?_
        refine chainOK_reverse (colsOf (n0 :: rest)) rest (fun i hi => ?_) (fun hrne => ?_)
          (fun l hl => hpos l (by simp [hl]))
        · exact hlink (i + 1) (by simp; omega)
        · rw [getLastD_tail n0 rest hrne]
          rfl

/-- Helper: unit chunks reproduce the vector. -/
theorem chunkSums_replicate_one : ∀ (n : ℕ) (b : List ℚ), b.length = n →
    chunkSums (List.replicate n 1) b = b := by
  intro n
  induction n with
  | zero =>
      intro b hb
      rw [List.length_eq_zero] at hb
      subst hb
      rfl
  | succ n ih =>
      intro b hb
      cases b with
      | nil => simp at hb
      | cons x xs =>
          rw [List.replicate_succ]
          unfold chunkSums
          rw [show List.drop 1 (x :: xs) = xs from rfl, ih xs (by simpa using hb)]
          simp

/-- Helper: the matrix–vector product over an interval stack computes the
chunk sums of the shifted vector. -/
theorem matVec_intervalRows (cols : ℕ) : ∀ (ws : List ℕ) (lo : ℕ) (b : List ℚ),
    matVec (intervalRows cols lo ws) b = chunkSums ws (b.drop lo) := by
  intro ws
  induction ws with
  | nil => intro lo b; rfl
  | cons w ws ih =>
      intro lo b
      rw [intervalRows_cons]
      unfold matVec chunkSums
      rw [List.map_cons]
      rw [show (intervalRows cols (lo + w) ws).map (fun r => dot r b) =
        matVec (intervalRows cols (lo + w) ws) b from rfl, ih (lo + w) b]
      rw [dot_indRow, List.drop_drop]

/-- Helper: lengths of `wchain` results. -/
theorem wchain_length (ws : List ℕ) : ∀ (ms : List (List ℕ)),
    (wchain ms ws).length = (if ms.isEmpty then ws.length else (ms.headD []).length) := by
  intro ms
  cases ms with
  | nil => rfl
  | cons m ms => simp [wchain_cons, groupSums_length]

/-- Helper: on a valid chain of levels, the widths at every level sum to the
full bottom count. -/
theorem wchain_sum (cols : ℕ) : ∀ ms : List (List ℕ),
    (∀ i, i + 1 < ms.length → (ms.getD i []).sum = (ms.getD (i + 1) []).length) →
    (ms ≠ [] → (ms.getLastD []).sum = cols) →
    (wchain ms (List.replicate cols 1)).sum = cols := by
  intro ms
  induction ms with
  | nil => intro _ _; simp [wchain]
  | cons m ms ih =>
      intro hlink hlast
      rw [wchain_cons, groupSums_sum]
      have hmsum : m.sum = (wchain ms (List.replicate cols 1)).length := by
        rw [wchain_length]
        cases ms with
        | nil => simpa using hlast (by simp)
        | cons m2 ms2 =>
            have := hlink 0 (by simp)
            simpa using this
      rw [hmsum, List.take_length]
      refine ih (fun i hi => hlink (i + 1) (by simp; omega)) (fun hne => ?_)
      rw [getLastD_tail m ms hne]
      exact hlast (by simp)

/-- Helper: on a valid hierarchy the root-level widths are the single full
interval. -/
theorem wchain_root (nodes : List (List ℕ)) (hval : validNodes nodes = true) :
    wchain nodes (List.replicate (colsOf nodes) 1) = [colsOf nodes] := by
  obtain ⟨hne, hhead, hlink, hpos⟩ := validNodes_spec nodes hval
  have hlen : (wchain nodes (List.replicate (colsOf nodes) 1)).length = 1 := by
    rw [wchain_length]
    cases nodes with
    | nil => exact absurd rfl hne
    | cons n0 rest => simpa using hhead
  have hsum : (wchain nodes (List.replicate (colsOf nodes) 1)).sum = colsOf nodes := by
    refine wchain_sum (colsOf nodes) nodes hlink (fun _ => rfl)
  cases hw : wchain nodes (List.replicate (colsOf nodes) 1) with
  | nil => rw [hw] at hlen; simp at hlen
  | cons x xs =>
      rw [hw] at hlen hsum
      cases xs with
      | nil => simp at hsum; rw [hsum]
      | cons y ys => simp at hlen

/-- Helper: on a valid hierarchy, multiplying the `to_sum_mat` matrix by any
bottom vector of the right length produces exactly the per-node
descendant-interval sums. -/
theorem matVec_to_sum_mat (nodes : List (List ℕ)) (S : List (List ℚ))
    (hval : validNodes nodes = true) (hS : to_sum_mat nodes = .ok S)
    (b : List ℚ) (hb : b.length = colsOf nodes) :
    matVec S b = specSums nodes b := by
  rw [to_sum_mat_structure nodes hval] at hS
  injection hS with hS
  subst hS
  obtain ⟨hne, hhead, hlink, hpos⟩ := validNodes_spec nodes hval
  unfold specSums
  have hL : nodes.length = (nodes.length - 1) + 1 := by
    cases nodes with
    | nil => exact absurd rfl hne
    | cons n0 rest => simp
  rw [show matVec (List.replicate (colsOf nodes) 1 ::
      ((List.range (nodes.length - 1)).flatMap
        (fun i => intervalRows (colsOf nodes) 0
          (wchain (nodes.drop (i + 1)) (List.replicate (colsOf nodes) 1)))
        ++ idMat (colsOf nodes))) b =
    dot (List.replicate (colsOf nodes) 1) b ::
      (matVec ((List.range (nodes.length - 1)).flatMap
        (fun i => intervalRows (colsOf nodes) 0
          (wchain (nodes.drop (i + 1)) (List.replicate (colsOf nodes) 1)))) b
        ++ matVec (idMat (colsOf nodes)) b) from by
      unfold matVec
      simp]
  rw [List.range_succ_eq_map, List.flatMap_cons, List.flatMap_map]
  simp only [Nat.succ_eq_add_one, List.drop_zero]
  rw [wchain_root nodes hval]
  have htake : b.take (colsOf nodes) = b := by
    rw [← hb]
    exact List.take_length b
  rw [show chunkSums [colsOf nodes] b = [b.sum] from by
    unfold chunkSums
    rw [htake]
    rfl]
  rw [dot_replicate_one, htake, List.singleton_append]
  congr 1
  have hdrop : nodes.drop ((nodes.length - 1) + 1) = [] := by
    rw [← hL]
    exact List.drop_length nodes
  conv_rhs => rw [hL, List.range_succ, List.flatMap_append, List.flatMap_cons,
    List.flatMap_nil, List.append_nil, hdrop]
  rw [show wchain [] (List.replicate (colsOf nodes) 1) =
    List.replicate (colsOf nodes) 1 from rfl]
  rw [chunkSums_replicate_one (colsOf nodes) b hb]
  rw [idMat_eq_intervalRows, matVec_intervalRows, List.drop_zero,
    chunkSums_replicate_one (colsOf nodes) b hb]
  congr 1
  unfold matVec
  rw [List.map_flatMap]
  refine congrArg _ (funext fun i => ?_)
  rw [show (intervalRows (colsOf nodes) 0
      (wchain (nodes.drop (i + 1)) (List.replicate (colsOf nodes) 1))).map
      (fun r => dot r b) =
    matVec (intervalRows (colsOf nodes) 0
      (wchain (nodes.drop (i + 1)) (List.replicate (colsOf nodes) 1))) b from rfl]
  rw [matVec_intervalRows]
  rw [List.drop_zero]


/-- C2: on every valid hierarchy, the matrix `S` returned by `to_sum_mat`
has the all-ones vector as its root (first) row, the identity matrix of size
equal to the bottom-series count as its bottom row block, and for every bottom
forecast vector `b`, `S · b` is exactly the vector of per-node descendant sums
(`specSums`): for each level (root, interior levels top-down, bottom level)
and each node of that level, the sum of `b` over that node's consecutive
bottom-descendant interval. -/
theorem c2_sum_mat_aggregation (nodes : List (List ℕ)) (S : List (List ℚ))
    (hval : validNodes nodes = true) (hS : to_sum_mat nodes = .ok S) :
    S.head? = some (List.replicate (colsOf nodes) 1) ∧
      S.drop (S.length - colsOf nodes) = idMat (colsOf nodes) ∧
      ∀ b : List ℚ, b.length = colsOf nodes → matVec S b = specSums nodes b := by
  rw [to_sum_mat_structure nodes hval] at hS
  injection hS with hS
  subst hS
  obtain ⟨hne, hhead, hlink, hpos⟩ := validNodes_spec nodes hval
  refine ⟨rfl, ?_, ?_⟩
  · have hid : (idMat (colsOf nodes)).length = colsOf nodes := by simp [idMat]
    set blocks := (List.range (nodes.length - 1)).flatMap
      (fun i => intervalRows (colsOf nodes) 0
        (wchain (nodes.drop (i + 1)) (List.replicate (colsOf nodes) 1))) with hblocks
    have hlen : (List.replicate (colsOf nodes) 1 :: (blocks ++ idMat (colsOf nodes))).length
        = blocks.length + colsOf nodes + 1 := by
      simp [hid]
    rw [hlen]
    have hstep : blocks.length + colsOf nodes + 1 - colsOf nodes = blocks.length + 1 := by
      omega
    rw [hstep]
    rw [List.drop_succ_cons]
    exact List.drop_left blocks (idMat (colsOf nodes))
  · exact fun b hb => matVec_to_sum_mat nodes _ hval (to_sum_mat_structure nodes hval) b hb

/-- C2 (witness): on the hierarchy `[[2],[2,1]]` with bottom forecasts
`[1, 2, 3]`, the summing matrix aggregates to `[6, 3, 3, 1, 2, 3]` (root 6,
A = 3, B = 3, then the bottom series themselves). -/
theorem c2_witness :
    matVec [[1, 1, 1], [1, 1, 0], [0, 0, 1], [1, 0, 0], [0, 1, 0], [0, 0, 1]] [1, 2, 3] =
      specSums [[2], [2, 1]] [1, 2, 3] ∧
    matVec [[1, 1, 1], [1, 1, 0], [0, 0, 1], [1, 0, 0], [0, 1, 0], [0, 0, 1]] [1, 2, 3] =
      [6, 3, 3, 1, 2, 3] := by
  have h := c2_sum_mat_aggregation [[2], [2, 1]]
    [[1, 1, 1], [1, 1, 0], [0, 0, 1], [1, 0, 0], [0, 1, 0], [0, 0, 1]]
    (by decide) (by decide)
  have h2 := h.2.2 [1, 2, 3] (by decide)
  exact ⟨h2, by rw [h2]; decide⟩

/-- Helper: one value per chunk. -/
theorem chunkSums_length : ∀ (ws : List ℕ) (b : List ℚ),
    (chunkSums ws b).length = ws.length := by
  intro ws
  induction ws with
  | nil => intro b; rfl
  | cons w ws ih => intro b; simp [chunkSums, ih]

/-- Helper: the total of the chunk sums is the sum of the consumed prefix. -/
theorem chunkSums_sum : ∀ (ws : List ℕ) (b : List ℚ),
    (chunkSums ws b).sum = (b.take ws.sum).sum := by
  intro ws
  induction ws with
  | nil => intro b; rfl
  | cons w ws ih =>
      intro b
      simp only [chunkSums, List.sum_cons, ih, List.take_add, List.sum_append]

/-- Helper: a prefix of the chunk sums is the chunk sums of the width prefix. -/
theorem chunkSums_take : ∀ (ws : List ℕ) (b : List ℚ) (c : ℕ),
    (chunkSums ws b).take c = chunkSums (ws.take c) b := by
  intro ws
  induction ws with
  | nil => intro b c; simp [chunkSums]
  | cons w ws ih =>
      intro b c
      cases c with
      | zero => rfl
      | succ c => simp [chunkSums, ih]

/-- Helper: a suffix of the chunk sums is the chunk sums of the width suffix
over the correspondingly shifted vector. -/
theorem chunkSums_drop : ∀ (ws : List ℕ) (b : List ℚ) (c : ℕ),
    (chunkSums ws b).drop c = chunkSums (ws.drop c) (b.drop ((ws.take c).sum)) := by
  intro ws
  induction ws with
  | nil => intro b c; simp [chunkSums]
  | cons w ws ih =>
      intro b c
      cases c with
      | zero => simp [chunkSums]
      | succ c =>
          simp only [chunkSums, List.drop_succ_cons, List.take_succ_cons,
            List.sum_cons, ih, List.drop_drop]

/-- Helper: grouping widths then chunking is chunking twice — the descendant
sums at a level are the grouped sums of the descendant sums one level below. -/
theorem chunkSums_groupSums : ∀ (cs ws : List ℕ) (b : List ℚ),
    chunkSums (groupSums cs ws) b = chunkSums cs (chunkSums ws b) := by
  intro cs
  induction cs with
  | nil => intro ws b; rfl
  | cons c cs ih =>
      intro ws b
      unfold groupSums chunkSums
      rw [chunkSums_take, chunkSums_sum, chunkSums_drop, ih]

/-- Helper: an entry of the chunk sums is the sum of the matching slice. -/
theorem chunkSums_getD : ∀ (cs : List ℕ) (u : List ℚ) (p : ℕ), p < cs.length →
    (chunkSums cs u).getD p 0 =
      ((u.drop ((cs.take p).sum)).take (cs.getD p 0)).sum := by
  intro cs
  induction cs with
  | nil => intro u p hp; simp at hp
  | cons c cs ih =>
      intro u p hp
      cases p with
      | zero => simp [chunkSums]
      | succ p =>
          simp only [chunkSums, List.getD_cons_succ, List.take_succ_cons,
            List.sum_cons, List.drop_drop]
          rw [ih (List.drop c u) p (by simpa using hp)]
          rw [List.drop_drop]

/-- Helper: reading a dropped list reads at the shifted index. -/
theorem getD_drop (l : List ℚ) (n p : ℕ) :
    (l.drop n).getD p 0 = l.getD (n + p) 0 := by
  rw [List.getD_eq_getElem?_getD, List.getD_eq_getElem?_getD, List.getElem?_drop]

/-- Helper: the sum of a one-longer prefix adds the next entry. -/
theorem sum_take_succ_getD (cs : List ℕ) (p : ℕ) (hp : p < cs.length) :
    (cs.take (p + 1)).sum = (cs.take p).sum + cs.getD p 0 := by
  rw [List.take_add, List.sum_append]
  have : cs.drop p = cs.getD p 0 :: cs.drop (p + 1) := by
    rw [List.drop_eq_getElem_cons hp, List.getD_eq_getElem _ _ hp]
  rw [this]
  simp

/-- Helper: `specSums` as the concatenation of its level blocks. -/
theorem specSums_eq_flatMap (nodes : List (List ℕ)) (b : List ℚ) :
    specSums nodes b =
      (List.range (nodes.length + 1)).flatMap (specBlock nodes b) := rfl

/-- Helper: the head of a dropped list is the element at the drop position. -/
theorem headD_drop (nodes : List (List ℕ)) (i : ℕ) (hi : i < nodes.length) :
    (nodes.drop i).headD [] = nodes.getD i [] := by
  rw [List.drop_eq_getElem_cons hi, List.getD_eq_getElem _ _ hi]
  rfl

/-- Helper: the length of each level block matches `blockLen`. -/
theorem specBlock_length (nodes : List (List ℕ)) (b : List ℚ)
    (hval : validNodes nodes = true) : ∀ i, i ≤ nodes.length →
    (specBlock nodes b i).length = blockLen nodes i := by
  intro i hi
  obtain ⟨hne, hhead, hlink, hpos⟩ := validNodes_spec nodes hval
  unfold specBlock blockLen
  rw [chunkSums_length]
  rcases Nat.eq_zero_or_pos i with h0 | h0
  · subst h0
    rw [List.drop_zero, wchain_root nodes hval]
    simp
  · rcases Nat.lt_or_ge i nodes.length with hlt | hge
    · rw [wchain_length]
      rw [if_neg (by
        intro hemp
        rw [List.isEmpty_iff, List.drop_eq_nil_iff] at hemp
        omega)]
      rw [headD_drop nodes i hlt]
      rw [if_neg (by omega), if_pos hlt]
    · have hiL : i = nodes.length := by omega
      subst hiL
      rw [List.drop_length]
      rw [show wchain [] (List.replicate (colsOf nodes) 1) =
        List.replicate (colsOf nodes) 1 from rfl]
      rw [if_neg (by omega), if_neg (by omega)]
      simp

/-- Helper: dropping a level-start prefix of `specSums` leaves the blocks from
that level downwards. -/
theorem specSums_decomp (nodes : List (List ℕ)) (b : List ℚ)
    (hval : validNodes nodes = true) : ∀ i, i ≤ nodes.length →
    (specSums nodes b).drop (rowStart nodes i) =
      (List.range' i (nodes.length + 1 - i)).flatMap (specBlock nodes b) := by
  intro i
  induction i with
  | zero =>
      intro _
      rw [specSums_eq_flatMap]
      rw [show rowStart nodes 0 = 0 from rfl, List.drop_zero, Nat.sub_zero,
        ← List.range_eq_range']
  | succ i ih =>
      intro hi
      have hii : i ≤ nodes.length := by omega
      rw [show rowStart nodes (i + 1) = rowStart nodes i + blockLen nodes i from rfl]
      rw [← List.drop_drop, ih hii]
      rw [show nodes.length + 1 - i = (nodes.length - i) + 1 by omega, List.range'_succ,
        List.flatMap_cons]
      rw [List.drop_left' (specBlock_length nodes b hval i hii)]
      rw [show nodes.length + 1 - (i + 1) = nodes.length - i by omega]

/-- Helper: parent values in `specSums` are the sums of the matching child
slices one block further down. -/
theorem specSums_parent (nodes : List (List ℕ)) (b : List ℚ)
    (hval : validNodes nodes = true) (i p : ℕ)
    (hi : i < nodes.length) (hp : p < (nodes.getD i []).length) :
    (specSums nodes b).getD (rowStart nodes i + p) 0 =
      (((specSums nodes b).drop
        (rowStart nodes (i + 1) + ((nodes.getD i []).take p).sum)).take
        ((nodes.getD i []).getD p 0)).sum := by
  obtain ⟨hne, hhead, hlink, hpos⟩ := validNodes_spec nodes hval
  have hpFi : p < (specBlock nodes b i).length := by
    rw [specBlock_length nodes b hval i (le_of_lt hi)]
    unfold blockLen
    rcases Nat.eq_zero_or_pos i with h0 | h0
    · subst h0
      rw [if_pos rfl]
      have : nodes.getD 0 [] = nodes.headD [] := by
        cases nodes with
        | nil => rfl
        | cons n0 rest => rfl
      rw [this, hhead] at hp
      exact hp
    · rw [if_neg (by omega), if_pos hi]
      exact hp
  have h1 : (specSums nodes b).getD (rowStart nodes i + p) 0 =
      (specBlock nodes b i).getD p 0 := by
    rw [← getD_drop _ (rowStart nodes i) p, specSums_decomp nodes b hval i (le_of_lt hi)]
    rw [show nodes.length + 1 - i = (nodes.length - i) + 1 by omega, List.range'_succ,
      List.flatMap_cons]
    rw [List.getD_append _ _ _ _ hpFi]
  have hsplit : nodes.drop i = (nodes.getD i []) :: nodes.drop (i + 1) := by
    rw [List.drop_eq_getElem_cons hi, List.getD_eq_getElem _ _ hi]
  have hFi : specBlock nodes b i =
      chunkSums (nodes.getD i []) (specBlock nodes b (i + 1)) := by
    unfold specBlock
    rw [hsplit, wchain_cons, chunkSums_groupSums]
  have hsig : (nodes.getD i []).sum = (specBlock nodes b (i + 1)).length := by
    rw [specBlock_length nodes b hval (i + 1) (by omega)]
    unfold blockLen
    rw [if_neg (by omega)]
    rcases Nat.lt_or_ge (i + 1) nodes.length with hlt | hge
    · rw [if_pos hlt]
      exact hlink i hlt
    · have hiL : i + 1 = nodes.length := by omega
      rw [if_neg (by omega)]
      unfold colsOf
      rw [List.getLastD_eq_getLast?, List.getLast?_eq_getElem?]
      rw [show nodes.length - 1 = i by omega]
      rw [List.getElem?_eq_getElem hi]
      rw [show (some nodes[i]).getD [] = nodes[i] from rfl, ← List.getD_eq_getElem _ _ hi]
  have hoff : ((nodes.getD i []).take p).sum + (nodes.getD i []).getD p 0 ≤
      (specBlock nodes b (i + 1)).length := by
    rw [← hsig, ← sum_take_succ_getD _ p hp]
    exact sum_take_le _ _
  have h2 : (((specSums nodes b).drop
      (rowStart nodes (i + 1) + ((nodes.getD i []).take p).sum)).take
      ((nodes.getD i []).getD p 0)) =
      (((specBlock nodes b (i + 1)).drop ((nodes.getD i []).take p).sum).take
        ((nodes.getD i []).getD p 0)) := by
    rw [← List.drop_drop, specSums_decomp nodes b hval (i + 1) (by omega)]
    rw [show nodes.length + 1 - (i + 1) = (nodes.length - (i + 1)) + 1 by omega,
      List.range'_succ, List.flatMap_cons]
    rw [List.drop_append_of_le_length (by omega)]
    rw [List.take_append_of_le_length (by
      rw [List.length_drop]
      omega)]
  rw [h1, h2, hFi, chunkSums_getD _ _ p hp]

/-- Helper: dot products are additive in a mapped left factor. -/
theorem dot_map_add (idx : List ℕ) (g h : ℕ → ℚ) : ∀ v : List ℚ,
    dot (idx.map (fun j => g j + h j)) v = dot (idx.map g) v + dot (idx.map h) v := by
  induction idx with
  | nil => intro v; simp [dot]
  | cons j idx ih =>
      intro v
      cases v with
      | nil => simp [dot_nil_right]
      | cons u v =>
          simp only [List.map_cons, dot_cons, ih v]
          ring

/-- Helper: dot products are homogeneous in a mapped left factor. -/
theorem dot_map_mul (idx : List ℕ) (a : ℚ) (g : ℕ → ℚ) : ∀ v : List ℚ,
    dot (idx.map (fun j => a * g j)) v = a * dot (idx.map g) v := by
  induction idx with
  | nil => intro v; simp [dot]
  | cons j idx ih =>
      intro v
      cases v with
      | nil => simp [dot_nil_right]
      | cons u v =>
          simp only [List.map_cons, dot_cons, ih v]
          ring

/-- Helper: a constant-zero mapped left factor gives a zero dot product. -/
theorem dot_map_zero (idx : List ℕ) (v : List ℚ) :
    dot (idx.map (fun _ => (0 : ℚ))) v = 0 := by
  rw [List.map_const']
  exact dot_replicate_zero idx.length v

/-- Helper: the Fubini step — dotting the row-times-matrix vector against `v`
is dotting the row against the matrix-times-`v` vector, for a rectangular
matrix (summation order swap with numpy-style truncation). -/
theorem dot_matVec (r v : List ℚ) : ∀ Y : List (List ℚ), Rect Y →
    dot ((List.range (width Y)).map (fun j => dot r (colD Y j))) v =
      dot r (matVec Y v) := by
  induction r with
  | nil =>
      intro Y _
      rw [show (fun j => dot [] (colD Y j)) = (fun _ => (0 : ℚ)) from
        funext fun j => by simp [dot]]
      rw [dot_map_zero]
      simp [dot]
  | cons a r ih =>
      intro Y hY
      cases Y with
      | nil =>
          rw [show width ([] : List (List ℚ)) = 0 from rfl]
          simp [dot, matVec, dot_nil_right]
      | cons Yr Y2 =>
          have hw : width (Yr :: Y2) = Yr.length := rfl
          rw [show (fun j => dot (a :: r) (colD (Yr :: Y2) j)) =
            (fun j => a * Yr.getD j 0 + dot r (colD Y2 j)) from
            funext fun j => by rw [show colD (Yr :: Y2) j =
              Yr.getD j 0 :: colD Y2 j from rfl, dot_cons]]
          rw [dot_map_add, dot_map_mul, hw, range_map_getD Yr]
          rw [show matVec (Yr :: Y2) v = dot Yr v :: matVec Y2 v from rfl, dot_cons]
          refine congrArg _ ?_
          cases Y2 with
          | nil =>
              rw [show (fun j => dot r (colD ([] : List (List ℚ)) j)) =
                (fun _ => (0 : ℚ)) from funext fun j => by simp [colD, dot]]
              rw [dot_map_zero]
              simp [matVec, dot_nil_right]
          | cons Yr2 Y3 =>
              have hw2 : width (Yr2 :: Y3) = Yr.length := by
                have := hY Yr2 (by simp)
                rw [hw] at this
                rw [show width (Yr2 :: Y3) = Yr2.length from rfl, this]
              rw [← hw2]
              refine ih (Yr2 :: Y3) ?_
              intro row hrow
              rw [hw2]
              have := hY row (List.mem_cons_of_mem Yr hrow)
              rw [hw] at this
              exact this

/-- Helper: matrix–vector product through a product matrix, with a rectangular
right factor, is the composition of the two products. -/
theorem matVec_matMul (A B : List (List ℚ)) (v : List ℚ) (hB : Rect B) :
    matVec (matMul A B) v = matVec A (matVec B v) := by
  unfold matMul matVec
  rw [List.map_map]
  refine List.map_congr_left fun r _ => ?_
  exact dot_matVec r v B hB

/-- Helper: matrix products are rectangular by construction. -/
theorem rect_matMul (A B : List (List ℚ)) : Rect (matMul A B) := by
  intro r hr
  cases A with
  | nil => simp [matMul] at hr
  | cons a A2 =>
      unfold matMul at hr ⊢
      simp only [List.map_cons, List.mem_cons, List.mem_map] at hr
      rcases hr with hr | ⟨x, _, hr⟩ <;>
        (subst hr; simp [width])

/-- Helper: transposes are rectangular by construction. -/
theorem rect_transposeM (A : List (List ℚ)) : Rect (transposeM A) := by
  intro r hr
  unfold transposeM at hr ⊢
  cases hA : width A with
  | zero => rw [hA] at hr; simp at hr
  | succ w =>
      rw [hA] at hr
      simp only [List.mem_map] at hr
      obtain ⟨j, _, hr⟩ := hr
      subst hr
      simp [colD, width, List.range_succ_eq_map]

/-- Helper: successful inverses are square with the input size, and
rectangular, by construction. -/
theorem minv_ok_shape (A B : List (List ℚ)) (h : minv A = some B) :
    B.length = A.length ∧ Rect B := by
  unfold minv at h
  by_cases hsq : A.all (fun r => decide (r.length = A.length)) = true
  · rw [if_pos hsq] at h
    cases hg : gaussAll A.length (List.zipWith (fun r e => r ++ e) A (idMat A.length)) with
    | none => rw [hg] at h; cases h
    | some rs =>
        rw [hg] at h
        injection h with h
        subst h
        constructor
        · simp
        · intro r hr
          simp only [List.mem_map] at hr
          obtain ⟨i, _, hr⟩ := hr
          subst hr
          cases hn : A.length with
          | zero => simp [hn, width]
          | succ n => simp [hn, width, List.range_succ_eq_map]
  · rw [if_neg hsq] at h
    cases h

/-- Helper: turning a successful `minvE` into a successful `minv`. -/
theorem minvE_ok (A B : List (List ℚ)) (h : minvE A = .ok B) : minv A = some B := by
  unfold minvE at h
  cases hm : minv A with
  | none => rw [hm] at h; cases h
  | some C => rw [hm] at h; injection h with h; rw [h]

/-- Helper: every row of a successful shared-tail (`WLSS`/`WLSV`) projection
lies in the column space of the summing matrix: the projection matrix is
`S · (…)`, so each output row is `S` times some vector of length `width S`. -/
theorem ocTail_ok_rows (S hat diag M : List (List ℚ))
    (h : ocTail hat S (transposeM S) diag = .ok M) :
    ∀ row ∈ M, ∃ b : List ℚ, b.length = width S ∧ row = matVec S b := by
  unfold ocTail at h
  cases hinvd : minvE diag with
  | error e => simp only [hinvd] at h; exact Except.noConfusion h
  | ok invd =>
      simp only [hinvd] at h
      cases hinv1 : minvE (matMul (matMul (transposeM S) invd) S) with
      | error e => simp only [hinv1] at h; exact Except.noConfusion h
      | ok inv1 =>
          simp only [hinv1] at h
          obtain ⟨hlen_invd, hrect_invd⟩ := minv_ok_shape _ _ (minvE_ok _ _ hinvd)
          obtain ⟨hlen_inv1, hrect_inv1⟩ := minv_ok_shape _ _ (minvE_ok _ _ hinv1)
          unfold project at h
          by_cases hg : (hat.all (fun r => decide (r.length =
              width (matMul (matMul (matMul S inv1) (transposeM S)) invd))) &&
              decide ((matMul (matMul (matMul S inv1) (transposeM S)) invd).length =
                S.length)) = true
          · rw [if_pos hg] at h
            injection h with h
            subst h
            intro row hrow
            obtain ⟨h0, _, hrow⟩ := List.mem_map.mp hrow
            subst hrow
            rw [matVec_matMul _ invd _ hrect_invd,
              matVec_matMul _ (transposeM S) _ (rect_transposeM S),
              matVec_matMul _ inv1 _ hrect_inv1]
            refine ⟨matVec inv1 (matVec (transposeM S) (matVec invd h0)), ?_, rfl⟩
            simp only [matVec, List.length_map]
            rw [hlen_inv1]
            simp [matMul, transposeM]
          · rw [if_neg hg] at h
            cases h

/-- Helper: a successful `optimal_combination` call with method `WLSS` or
`WLSV` is a successful shared-tail projection of the assembled base
forecasts. -/
theorem optimal_combination_wls_ok (forecasts : List (String × List ℚ))
    (S M : List (List ℚ)) (mse : List (String × ℚ)) (method : String)
    (hm : method = "WLSS" ∨ method = "WLSV")
    (hok : optimal_combination forecasts S method mse = .ok M) :
    ∃ hat diag, y_hat_matrix forecasts none = .ok hat ∧
      ocTail hat S (transposeM S) diag = .ok M := by
  rcases hm with hm | hm <;> subst hm <;>
    unfold optimal_combination at hok <;>
    [skip; skip] <;>
    (cases hy : y_hat_matrix forecasts none with
      | error e => rw [hy] at hok; simp at hok
      | ok hat => ?_)
  · simp only [hy, reduceIte] at hok
    exact ⟨hat, _, rfl, by simpa using hok⟩
  · simp only [hy, reduceIte] at hok
    cases hmse : mse.isEmpty with
    | true => rw [hmse] at hok; simp at hok
    | false =>
        rw [hmse] at hok
        simp only [Bool.false_eq_true, if_false] at hok
        exact ⟨hat, _, rfl, by simpa using hok⟩

/-- C1: for every valid hierarchy with summing matrix `S = to_sum_mat nodes`
and every forecasts mapping (with per-series mse for WLSV), any matrix `M`
returned by `optimal_combination` with method `WLSS` or `WLSV` satisfies
aggregation consistency, regardless of whether the input base forecasts were
consistent: every row of `M` lies in the column space of `S` (it is `S · b`
for some bottom vector `b`), and consequently, in each horizon row, the value
in every parent node's column (`rowStart i + p` for the `p`-th node of level
`i`) equals the sum of the values in its children's columns (the consecutive
block of `nodes[i][p]` entries of level `i + 1` starting at child offset
`(nodes[i].take p).sum`). -/
theorem c1_wls_aggregation_consistency (nodes : List (List ℕ))
    (S M : List (List ℚ)) (forecasts : List (String × List ℚ))
    (mse : List (String × ℚ)) (method : String)
    (hval : validNodes nodes = true)
    (hS : to_sum_mat nodes = .ok S)
    (hm : method = "WLSS" ∨ method = "WLSV")
    (hok : optimal_combination forecasts S method mse = .ok M) :
    ∀ row ∈ M,
      (∃ b : List ℚ, b.length = colsOf nodes ∧ row = matVec S b) ∧
      (∀ i p, i < nodes.length → p < (nodes.getD i []).length →
        row.getD (rowStart nodes i + p) 0 =
          ((row.drop (rowStart nodes (i + 1) + ((nodes.getD i []).take p).sum)).take
            ((nodes.getD i []).getD p 0)).sum) := by
  obtain ⟨hat, diag, hy, htail⟩ :=
    optimal_combination_wls_ok forecasts S M mse method hm hok
  have hwS : width S = colsOf nodes := by
    have hstruct := to_sum_mat_structure nodes hval
    rw [hS] at hstruct
    injection hstruct with h2
    rw [h2]
    simp [width]
  intro row hrow
  obtain ⟨b, hbl, hbrow⟩ := ocTail_ok_rows S hat diag M htail row hrow
  rw [hwS] at hbl
  refine ⟨⟨b, hbl, hbrow⟩, ?_⟩
  intro i p hi hp
  rw [hbrow, matVec_to_sum_mat nodes S hval hS b hbl]
  exact specSums_parent nodes b hval i p hi hp

/-- C1 (witness): the WLSS reconciliation of the inconsistent base forecasts
`total = 12, a = 3, b = 6` over the hierarchy `[[2]]` is
`[10.5, 3.75, 6.75]`, and the theorem instantiates on it: the single output
row is in the column space of `S` and the root column equals the sum of the
two child columns. -/
theorem c1_witness :
    validNodes [[2]] = true ∧
    to_sum_mat [[2]] = .ok [[1, 1], [1, 0], [0, 1]] ∧
    optimal_combination [("t", [12]), ("a", [3]), ("b", [6])]
      [[1, 1], [1, 0], [0, 1]] "WLSS" [] = .ok [[21/2, 15/4, 27/4]] ∧
    (∀ row ∈ [[(21 : ℚ)/2, 15/4, 27/4]],
      (∃ b : List ℚ, b.length = colsOf [[2]] ∧ row = matVec [[1, 1], [1, 0], [0, 1]] b) ∧
      (∀ i p, i < ([[2]] : List (List ℕ)).length → p < (([[2]] : List (List ℕ)).getD i []).length →
        row.getD (rowStart [[2]] i + p) 0 =
          ((row.drop (rowStart [[2]] (i + 1) + ((([[2]] : List (List ℕ)).getD i []).take p).sum)).take
            ((([[2]] : List (List ℕ)).getD i []).getD p 0)).sum)) :=
  ⟨by decide, by decide, by decide,
    c1_wls_aggregation_consistency [[2]] [[1, 1], [1, 0], [0, 1]]
      [[21/2, 15/4, 27/4]] [("t", [12]), ("a", [3]), ("b", [6])] [] "WLSS"
      (by decide) (by decide) (Or.inl rfl) (by decide)⟩

end HTS
